import Mathlib

/-
Shallow embedding of src/shared/ebm_native/Discretization.cpp.

Modelling conventions:
* `FloatEbmType` (a C `double`) is modelled as `Option ℚ`: `none` is NaN and
  `some q` is a non-NaN value.  Everywhere the program only compares, sorts or
  copies doubles, rationals are an exact model of the non-NaN doubles.
* The one place the program does double *arithmetic* (`GetAvgLength`) is
  modelled with an explicit IEEE-754 binary64 round-to-nearest-even model
  (`roundF64` below) over exact rationals.  All quantities reaching it are
  counts in [1, 2^63), far inside the normal range of binary64, so overflow
  and subnormals cannot arise and are not modelled.
* `size_t` / `IntEbmType` (int64_t) values are modelled as `ℕ` / `ℤ` with the
  concrete range facts (size_t is 64 bits, IntEbmType is 63-bit nonnegative
  after the sign check) stated where they matter.
* `malloc` failure, `RandomStream` construction failure and the
  `randomStream.IsSuccess()` flag are environment events, passed in as an
  explicit `Oracle` record; everything else is deterministic.
-/

/-- A C `double` value: `none` models NaN, `some q` a non-NaN value. -/
abbrev FloatEbmType := Option ℚ

/-- The isnan test on a modelled double. -/
def floatIsNaN (v : FloatEbmType) : Bool := v.isNone

/- ----------------------------------------------------------------
   RemoveMissingValues (Discretization.cpp lines 199-222).
   The C++ walks the buffer with `pCopyFrom`; until the first NaN is found
   nothing is moved; from the first NaN on, the inner do-while copies every
   non-NaN value forward to `pCopyTo`.  The returned pointer is the end of the
   compacted prefix; we model the function as returning that compacted prefix.
   ---------------------------------------------------------------- -/

/-- Inner copy loop of `RemoveMissingValues` (lines 208-216): after the first
NaN has been found, keep exactly the non-NaN values, in order. -/
def removeMissingCompact : List FloatEbmType → List FloatEbmType
  | [] => []
  | v :: rest =>
    if floatIsNaN v then removeMissingCompact rest else v :: removeMissingCompact rest

/-- RemoveMissingValues (lines 199-222): scan for the first NaN (outer
do-while); values before it stay in place; the first NaN is skipped
(`goto skip_val`) and the remaining buffer is compacted by the inner loop. -/
def RemoveMissingValues : List FloatEbmType → List FloatEbmType
  | [] => []
  | v :: rest =>
    if floatIsNaN v then removeMissingCompact rest else v :: RemoveMissingValues rest

/- ----------------------------------------------------------------
   GetCountBinsMax (lines 149-176).
   `cBits` starts at ((~size_t 0) >> 1) + 1 = 2^63 (64-bit size_t) and is
   halved each iteration; the do-while exits after the iteration in which
   `cBits` has been shifted down to 0x8, i.e. the probed values are
   2^63, 2^62, ..., 2^4.  We track the exponent: `binsLoop k m` probes
   2^k, 2^(k-1), ..., 2^4 and is entered at k = 63.
   ---------------------------------------------------------------- -/

/-- The do-while of `GetCountBinsMax` (lines 160-173), tracking the exponent
of `cBits`.  `binsLoop k m` probes 2^k down to 2^4: if some probed power
equals `m`, the result is `m - 1`, otherwise `m`.  (The `k ≤ 4` exit test is
`k = 4` on every reachable call; `≤` only makes totality evident.) -/
def binsLoop : ℕ → ℕ → ℕ
  | k, cMaximumBins =>
    if 2 ^ k = cMaximumBins then cMaximumBins - 1
    else if k ≤ 4 then cMaximumBins
    else binsLoop (k - 1) cMaximumBins
termination_by k _ => k
decreasing_by omega

/-- GetCountBinsMax (lines 149-176): with missing values present, an exact
power of two ≥ 16 is decremented by one so that the extra missing bin does
not force a wider storage type. -/
def GetCountBinsMax (bMissing : Bool) (countMaximumBins : ℕ) : ℕ :=
  if bMissing then binsLoop 63 countMaximumBins else countMaximumBins

/- ----------------------------------------------------------------
   IEEE-754 binary64 model for GetAvgLength (lines 178-197).
   ---------------------------------------------------------------- -/

/-- Round a rational to the nearest integer, ties to even (the IEEE-754
default rounding of a real significand). -/
def rhe (x : ℚ) : ℤ :=
  if x - ⌊x⌋ < 1 / 2 then ⌊x⌋
  else if (1 : ℚ) / 2 < x - ⌊x⌋ then ⌊x⌋ + 1
  else if ⌊x⌋ % 2 = 0 then ⌊x⌋ else ⌊x⌋ + 1

/-- Round a nonnegative rational to the nearest binary64 value (53-bit
significand, round to nearest, ties to even).  The values fed to it in this
file lie in (2^-64, 2^64), well inside the binary64 normal range, so overflow
and subnormals are not modelled. -/
def roundF64 (q : ℚ) : ℚ :=
  if q ≤ 0 then 0
  else (rhe (q * 2 ^ (52 - Int.log 2 q)) : ℚ) * 2 ^ (Int.log 2 q - 52)

/-- The conversion `static_cast<FloatEbmType>` of a size_t count to double. -/
def toF64 (n : ℕ) : ℚ := roundF64 n

/-- Binary64 division of two (nonnegative) doubles: the exact quotient,
correctly rounded. -/
def divF64 (x y : ℚ) : ℚ := roundF64 (x / y)

/-- `std::ceil` on a binary64 value: exact (the ceiling of a double is always
representable for the magnitudes arising here). -/
def ceilF64 (q : ℚ) : ℚ := (⌈q⌉ : ℚ)

/-- The robustness loop of `GetAvgLength` (lines 188-192): while the float
cast of `avgLength` is below `avgLengthFloat`, increment.  The C++ loop
terminates because a double never underestimates a size_t by a factor two;
the fuel bound `2 * avgLength + 64` over-covers that, and in every reachable
state the loop in fact exits immediately. -/
def bumpLoop : ℕ → ℕ → ℚ → ℕ
  | 0, avgLength, _ => avgLength
  | fuel + 1, avgLength, target =>
    if toF64 avgLength < target then bumpLoop fuel (avgLength + 1) target else avgLength

/-- GetAvgLength (lines 178-197): ceil(cInstances / cMaximumBins) computed in
double arithmetic, forced upward until representable, then clamped below by
cMinimumInstancesPerBin. -/
def GetAvgLength (cInstances cMaximumBins cMinimumInstancesPerBin : ℕ) : ℕ :=
  let avgLengthFloat : ℚ := ceilF64 (divF64 (toF64 cInstances) (toF64 cMaximumBins))
  let avgLength0 : ℕ := (⌊avgLengthFloat⌋).toNat
  let avgLength : ℕ := bumpLoop (2 * avgLength0 + 64) avgLength0 avgLengthFloat
  if avgLength < cMinimumInstancesPerBin then cMinimumInstancesPerBin else avgLength

/- ----------------------------------------------------------------
   SplittingRange and the two fair randomized orderings (lines 20-147).
   ---------------------------------------------------------------- -/

/-- SplittingRange (lines 24-40).  `m_pSplittableValuesStart` is a pointer
into the sorted value buffer; since the records are built in buffer order,
pointer comparison is comparison of start indices, so the pointer is modelled
as the start index. -/
structure SplittingRange where
  m_pSplittableValuesStart : ℕ
  m_cSplittableItems : ℕ
  m_cUnsplittablePriorItems : ℕ
  m_cUnsplittableSubsequentItems : ℕ
  m_cUnsplittableEitherSideMax : ℕ
  m_cUnsplittableEitherSideMin : ℕ
  m_cSplitsAssigned : ℕ
  m_flags : ℕ
  deriving DecidableEq, Repr

/-- The seeded random source.  The spec treats it as an abstract "draw an
index in [0, bound)" capability; we model it as a stream of raw draws,
reduced modulo the bound. -/
structure RandomStream where
  draws : List ℕ
  deriving DecidableEq, Repr

/-- One draw: `pRandomStream->Next(bound)` returns a value in [0, bound) and
advances the stream. -/
def RandomStream.next (rs : RandomStream) (bound : ℕ) : ℕ × RandomStream :=
  (rs.draws.headD 0 % bound, ⟨rs.draws.tail⟩)

/-- The in-place swap loop shared by both sorts (lines 68-75, 82-89, 124-131,
139-146): while more than one element remains, draw `iSwap` in
[0, remaining), swap the front element with the one `iSwap` positions later,
and advance the front.  This is a forward Fisher-Yates shuffle.  On a list,
swapping position 0 with position `iSwap` and advancing means: emit the
element at `iSwap`, and continue on the remainder with the old front element
written at position `iSwap`. -/
def fisherYates {α : Type} : RandomStream → List α → List α × RandomStream
  | rs, [] => ([], rs)
  | rs, [a] => ([a], rs)
  | rs, a :: b :: l =>
    let drawn := rs.next (a :: b :: l).length
    let swapped := (a :: b :: l).set drawn.1 a
    let rest := fisherYates drawn.2 swapped.tail
    ((a :: b :: l).getD drawn.1 a :: rest.1, rest.2)
termination_by _ l => l.length
decreasing_by simp [List.length_set]

/-- The block scan shared by both sorts (lines 59-89 and 113-146): walk the
sorted array; while the primary key of the next element matches the key of
the current block's first element, extend the block; on a key change (and
once more at the end) Fisher-Yates-shuffle the finished block in place.
`run` is the current (nonempty) block, `keyEq` the primary-key equality
test. -/
def shuffleRunsAux {α : Type} (keyEq : α → α → Bool) :
    RandomStream → List α → List α → List α
  | rs, run, [] => (fisherYates rs run).1
  | rs, run, x :: xs =>
    if keyEq (run.headD x) x then shuffleRunsAux keyEq rs (run ++ [x]) xs
    else (fisherYates rs run).1 ++ shuffleRunsAux keyEq (fisherYates rs run).2 [x] xs

/-- The strict comparator of lines 51-57, weakened to its ≤ closure
(`ascLe r1 r2 = ¬cmp(r2, r1)`): ascending `m_cSplittableItems`, ties broken
by ascending original position (the pointer into the record array). -/
def ascLe (r1 r2 : SplittingRange) : Bool :=
  if r1.m_cSplittableItems = r2.m_cSplittableItems then
    r1.m_pSplittableValuesStart ≤ r2.m_pSplittableValuesStart
  else r1.m_cSplittableItems < r2.m_cSplittableItems

/-- Primary-key equality test of the ascending sort's block scan
(lines 61-64): same `m_cSplittableItems`. -/
def ascKeyEq (r1 r2 : SplittingRange) : Bool :=
  r1.m_cSplittableItems == r2.m_cSplittableItems

/-- The strict comparator of lines 101-111, weakened to its ≤ closure:
descending (`m_cUnsplittableEitherSideMax`, `m_cUnsplittableEitherSideMin`),
ties broken by descending original position. -/
def descLe (r1 r2 : SplittingRange) : Bool :=
  if r1.m_cUnsplittableEitherSideMax = r2.m_cUnsplittableEitherSideMax then
    if r1.m_cUnsplittableEitherSideMin = r2.m_cUnsplittableEitherSideMin then
      r2.m_pSplittableValuesStart ≤ r1.m_pSplittableValuesStart
    else r2.m_cUnsplittableEitherSideMin < r1.m_cUnsplittableEitherSideMin
  else r2.m_cUnsplittableEitherSideMax < r1.m_cUnsplittableEitherSideMax

/-- Primary-key equality test of the descending sort's block scan
(lines 115-120): same compound key (max, min). -/
def descKeyEq (r1 r2 : SplittingRange) : Bool :=
  r1.m_cUnsplittableEitherSideMax == r2.m_cUnsplittableEitherSideMax &&
    r1.m_cUnsplittableEitherSideMin == r2.m_cUnsplittableEitherSideMin

/-- SortSplittingRangesByCountItemsAscending (lines 43-90).  `std::sort`
under this comparator is a total preorder whose ties are exact (key, start)
duplicates, so the sorted output is the stable sort by (key, start); it is
modelled by `List.mergeSort`.  The shuffle pass then randomizes each maximal
equal-key block. -/
def SortSplittingRangesByCountItemsAscending
    (pRandomStream : RandomStream) (apSplittingRange : List SplittingRange) :
    List SplittingRange :=
  match apSplittingRange.mergeSort ascLe with
  | [] => []
  | a :: rest => shuffleRunsAux ascKeyEq pRandomStream [a] rest

/-- SortSplittingRangesByUnsplittableDescending (lines 93-147): as the
ascending sort, with the descending compound key. -/
def SortSplittingRangesByUnsplittableDescending
    (pRandomStream : RandomStream) (apSplittingRange : List SplittingRange) :
    List SplittingRange :=
  match apSplittingRange.mergeSort descLe with
  | [] => []
  | a :: rest => shuffleRunsAux descKeyEq pRandomStream [a] rest

/- Spec-side description of the fair randomized orderer (spec section 4.4),
for the refinement statement: stable sort by the primary key with positional
tie-break, split into maximal equal-primary-key blocks, Fisher-Yates shuffle
each block, concatenate. -/

/-- Maximal adjacent blocks of `run ++ rest` whose elements agree under
`keyEq` with the block's first element; `run` is the (nonempty) block in
progress. -/
def runsByAux {α : Type} (keyEq : α → α → Bool) : List α → List α → List (List α)
  | run, [] => [run]
  | run, x :: xs =>
    if keyEq (run.headD x) x then runsByAux keyEq (run ++ [x]) xs
    else run :: runsByAux keyEq [x] xs

/-- Maximal adjacent equal-key blocks of a list. -/
def runsBy {α : Type} (keyEq : α → α → Bool) : List α → List (List α)
  | [] => []
  | a :: rest => runsByAux keyEq [a] rest

/-- Fisher-Yates-shuffle each block in order, threading the random stream. -/
def shuffleGroups {α : Type} : RandomStream → List (List α) → List α
  | _, [] => []
  | rs, g :: gs => (fisherYates rs g).1 ++ shuffleGroups (fisherYates rs g).2 gs

/-- Spec section 4.4 description of the ascending fair ordering: stable sort
by (m_cSplittableItems, original position), then shuffle every maximal
equal-key block with the seeded source. -/
def fairOrderingAscending (rs : RandomStream) (l : List SplittingRange) :
    List SplittingRange :=
  shuffleGroups rs (runsBy ascKeyEq (l.mergeSort ascLe))

/-- Spec section 4.4 description of the descending fair ordering. -/
def fairOrderingDescending (rs : RandomStream) (l : List SplittingRange) :
    List SplittingRange :=
  shuffleGroups rs (runsBy descKeyEq (l.mergeSort descLe))

/- ----------------------------------------------------------------
   Discretize (lines 636-727).
   ---------------------------------------------------------------- -/

/-- The binary-search do-while of `Discretize` (lines 686-692 and 710-716):
`middle = (low + high) >> 1` (arithmetic shift, i.e. floor division), move
`low` up past `middle` when `cut[middle] ≤ val`, otherwise move `high` below
`middle`; loop while `low ≤ high`.  Returns the final `middle` and
`midVal`. -/
def bsearchLoop (cutPointsLowerBoundInclusive : List ℚ) (val : ℚ) :
    ℤ → ℤ → ℤ × ℚ
  | low, high =>
    let middle := (low + high) / 2
    let midVal := cutPointsLowerBoundInclusive.getD middle.toNat 0
    if midVal ≤ val then
      if middle + 1 ≤ high then bsearchLoop cutPointsLowerBoundInclusive val (middle + 1) high
      else (middle, midVal)
    else
      if low ≤ middle - 1 then bsearchLoop cutPointsLowerBoundInclusive val low (middle - 1)
      else (middle, midVal)
termination_by low high => (high + 1 - low).toNat
decreasing_by all_goals omega

/-- The per-value mapping of `Discretize` (lines 665-724): with no cut points,
non-NaN maps to 0 (or 1 with a missing bin) and NaN to -1 (or 0); otherwise
NaN maps to -1 (or 0 with a missing bin), and a non-NaN value is binary
searched, the final index being `middle + 1` or `middle` (one higher when the
missing bin shifts everything up). -/
def discretizeOne (isMissing : Bool) (cutPointsLowerBoundInclusive : List ℚ)
    (val : FloatEbmType) : ℤ :=
  if cutPointsLowerBoundInclusive.length = 0 then
    match val with
    | none => if isMissing then 0 else -1
    | some _ => if isMissing then 1 else 0
  else
    let highStart : ℤ := (cutPointsLowerBoundInclusive.length : ℤ) - 1
    if isMissing then
      match val with
      | none => 0
      | some v =>
        let r := bsearchLoop cutPointsLowerBoundInclusive v 0 highStart
        if r.2 ≤ v then r.1 + 2 else r.1 + 1
    else
      match val with
      | none => -1
      | some v =>
        let r := bsearchLoop cutPointsLowerBoundInclusive v 0 highStart
        if r.2 ≤ v then r.1 + 1 else r.1

/-- Discretize (lines 636-727): map every input value independently. -/
def Discretize (isMissing : Bool) (cutPointsLowerBoundInclusive : List ℚ)
    (singleFeatureValues : List FloatEbmType) : List ℤ :=
  singleFeatureValues.map (discretizeOne isMissing cutPointsLowerBoundInclusive)

/- ----------------------------------------------------------------
   GenerateQuantileCutPoints (lines 224-586).
   ---------------------------------------------------------------- -/

/-- Environment events inside the try block of `GenerateQuantileCutPoints`:
whether the `RandomStream` constructor throws (caught at line 564), whether
`randomStream.IsSuccess()` holds (line 371), and whether `malloc`
succeeds (line 380).  Everything else the function does is deterministic. -/
structure Oracle where
  rsCtorThrows : Bool
  rsIsSuccess : Bool
  mallocOK : Bool
  deriving DecidableEq, Repr

/-- The observable outputs of `GenerateQuantileCutPoints`: the returned
status, and the four out-parameters.  `none` means the call returned without
writing that out-parameter (the caller's memory is untouched). -/
structure GQCPResult where
  ret : ℤ
  countCutPoints : Option ℤ
  isMissing : Option Bool
  minValue : Option ℚ
  maxValue : Option ℚ
  deriving DecidableEq, Repr

/-- State of the first segmentation scan (lines 316-335) over the sorted
buffer: the current run's value, the start of the open splittable range, the
start of the current equal run (all buffer indices), and the count of
splitting ranges found so far. -/
structure ScanState where
  rangeValue : ℚ
  pSplittableValuesStart : ℕ
  pStartEqualRange : ℕ
  cSplittingRanges : ℕ
  deriving DecidableEq, Repr

/-- One step of the segmentation scan (loop body, lines 321-335) at buffer
index `i` holding `val`: when the value changes, a closed equal run of length
`avgLength` or more becomes a separator; the splittable range before it is
counted unless it is a too-short range at the very start of the buffer. -/
def firstScanStep (avgLength cMinimumInstancesPerBin : ℕ) (s : ScanState)
    (iv : ℕ × ℚ) : ScanState :=
  if iv.2 ≠ s.rangeValue then
    let cEqualRangeItems := iv.1 - s.pStartEqualRange
    if avgLength ≤ cEqualRangeItems then
      if s.pSplittableValuesStart ≠ 0 ∨
          cMinimumInstancesPerBin ≤ s.pStartEqualRange - s.pSplittableValuesStart then
        { rangeValue := iv.2, pSplittableValuesStart := iv.1, pStartEqualRange := iv.1,
          cSplittingRanges := s.cSplittingRanges + 1 }
      else
        { rangeValue := iv.2, pSplittableValuesStart := iv.1, pStartEqualRange := iv.1,
          cSplittingRanges := s.cSplittingRanges }
    else { s with rangeValue := iv.2, pStartEqualRange := iv.1 }
  else s

/-- The segmentation scan (lines 316-335): start at index 0, walk indices
1 .. n-1. -/
def firstScan (sortedValues : List ℚ) (avgLength cMinimumInstancesPerBin : ℕ) :
    ScanState :=
  match sortedValues with
  | [] => ⟨0, 0, 0, 0⟩
  | v0 :: rest =>
    (List.enumFrom 1 rest).foldl (firstScanStep avgLength cMinimumInstancesPerBin)
      ⟨v0, 0, 0, 0⟩

/-- The split-possibility check (lines 342-353), reached when the whole
buffer is one splittable range: with `checkValue = values[cMin - 1]`, scan
indices cMin .. n - cMin for a value different from `checkValue`; any
difference means a cut is possible (the C++ exits at the first one). -/
def checkWindow (sortedValues : List ℚ) (cMinimumInstancesPerBin : ℕ) : Bool :=
  let checkValue := sortedValues.getD (cMinimumInstancesPerBin - 1) 0
  (List.range' cMinimumInstancesPerBin
      (sortedValues.length - cMinimumInstancesPerBin - cMinimumInstancesPerBin + 1)).any
    (fun p => sortedValues.getD p 0 ≠ checkValue)

/-- sizeof(SplittingRange) + sizeof(SplittingRange *) on an LP64 platform
(line 375): 64 + 8 bytes. -/
def cBytesCombined : ℕ := 72

/-- The try block of lines 369-566 stripped of the code with no observable
effect.  Lines 386-489 build the SplittingRange records and pointer table
inside the freshly malloc-ed block; the sorting/assignment code that would
consume them (lines 498-553) is commented out in the source, so after the
`free` at line 557 the block's construction has no observable effect and is
not modelled.  What remains observable: the constructor throw (caught),
the IsSuccess and multiply-overflow and malloc checks (goto exit_error), and
on success the single write `*countCutPoints = 0` (line 563). -/
def tryPhase (env : Oracle) (cSplittingRanges : ℕ) (bMissing : Bool)
    (minV maxV : ℚ) : GQCPResult :=
  if env.rsCtorThrows then ⟨1, none, some bMissing, some minV, some maxV⟩
  else if !env.rsIsSuccess then ⟨1, none, some bMissing, some minV, some maxV⟩
  else if 2 ^ 64 ≤ cSplittingRanges * cBytesCombined then
    ⟨1, none, some bMissing, some minV, some maxV⟩
  else if !env.mallocOK then ⟨1, none, some bMissing, some minV, some maxV⟩
  else ⟨0, some 0, some bMissing, some minV, some maxV⟩

/-- Lines 298-567 of `GenerateQuantileCutPoints`: the work on the sorted,
compacted buffer (whose length is the non-missing count `cInstances`).
Factored out so the branch structure can be analysed independently of the
preprocessing. -/
def gqcpPostSort (countMaximumBins countMinimumInstancesPerBin : ℤ) (env : Oracle)
    (bMissing : Bool) (sortedValues : List ℚ) : GQCPResult :=
  let cInstances := sortedValues.length
  let minV := sortedValues.headD 0
  let maxV := sortedValues.getLastD 0
  if countMaximumBins ≤ 1 then ⟨0, some 0, some bMissing, some minV, some maxV⟩
  else
    let cMinimumInstancesPerBin : ℕ :=
      if countMinimumInstancesPerBin ≤ 0 then 1 else countMinimumInstancesPerBin.toNat
    if cInstances < 2 * cMinimumInstancesPerBin then
      ⟨0, some 0, some bMissing, some minV, some maxV⟩
    else
      let cMaximumBins := GetCountBinsMax bMissing countMaximumBins.toNat
      let avgLength := GetAvgLength cInstances cMaximumBins cMinimumInstancesPerBin
      let scan := firstScan sortedValues avgLength cMinimumInstancesPerBin
      if scan.pSplittableValuesStart = 0 then
        -- lines 336-356: still in the first splittable range; it is the
        -- only one (cSplittingRanges = 1) and a cut must be possible
        if checkWindow sortedValues cMinimumInstancesPerBin then
          tryPhase env 1 bMissing minV maxV
        else ⟨0, some 0, some bMissing, some minV, some maxV⟩
      else
        -- lines 357-365: close out the trailing splittable range
        let cItemsLast := cInstances - scan.pSplittableValuesStart
        if cMinimumInstancesPerBin ≤ cItemsLast then
          tryPhase env (scan.cSplittingRanges + 1) bMissing minV maxV
        else if scan.cSplittingRanges = 0 then
          ⟨0, some 0, some bMissing, some minV, some maxV⟩
        else tryPhase env scan.cSplittingRanges bMissing minV maxV

/-- GenerateQuantileCutPoints (lines 224-586).  `IsNumberConvertable<size_t,
IntEbmType>` can only fail for a negative argument (size_t is 64 bits wide
and IntEbmType is int64_t); `countInstances` is the length of the modelled
buffer, hence never negative.  The `cutPointsLowerBoundInclusive` buffer is
never written by the shipped code and is not part of the result.  The
compacted buffer contains no NaN, so unwrapping it with `filterMap id`
preserves its length; the random seed is consumed only by the `RandomStream`
constructor, whose behaviour is part of `env`. -/
def GenerateQuantileCutPoints (randomSeed : ℤ) (singleFeatureValues : List FloatEbmType)
    (countMaximumBins countMinimumInstancesPerBin : ℤ) (env : Oracle) : GQCPResult :=
  if countMaximumBins < 0 then ⟨1, none, none, none, none⟩
  else if countMinimumInstancesPerBin < 0 then ⟨1, none, none, none, none⟩
  else if singleFeatureValues.length = 0 then ⟨0, some 0, some false, some 0, some 0⟩
  else
    let kept := RemoveMissingValues singleFeatureValues
    let bMissing : Bool := kept.length ≠ singleFeatureValues.length
    if kept.length = 0 then ⟨0, some 0, some bMissing, some 0, some 0⟩
    else
      gqcpPostSort countMaximumBins countMinimumInstancesPerBin env bMissing
        ((kept.filterMap id).mergeSort (fun a b => a ≤ b))

/- ----------------------------------------------------------------
   Theorems.  Helper lemmas first, then one theorem per claim.
   ---------------------------------------------------------------- -/

/-- The inner copy loop keeps exactly the non-NaN values, in order. -/
lemma removeMissingCompact_eq_filter (l : List FloatEbmType) :
    removeMissingCompact l = l.filter (fun v => v.isSome) := by
  induction l with
  | nil => rfl
  | cons v rest ih =>
    cases v <;> simp [removeMissingCompact, floatIsNaN, ih]

/-- RemoveMissingValues keeps exactly the non-NaN values, in order. -/
lemma RemoveMissingValues_eq_filter (l : List FloatEbmType) :
    RemoveMissingValues l = l.filter (fun v => v.isSome) := by
  induction l with
  | nil => rfl
  | cons v rest ih =>
    cases v <;> simp [RemoveMissingValues, floatIsNaN, removeMissingCompact_eq_filter, ih]

/-- The compacted length drops below the original length exactly when some
entry is NaN. -/
lemma filter_length_ne_iff_any (l : List FloatEbmType) :
    decide ((l.filter (fun v => v.isSome)).length ≠ l.length) =
      l.any (fun v => v.isNone) := by
  induction l with
  | nil => simp
  | cons v rest ih =>
    have hle := List.length_filter_le (fun v : FloatEbmType => v.isSome) rest
    cases v
    · simp only [List.any_cons, Option.isNone_none, Bool.true_or]
      simp only [List.filter]
      simp only [Option.isSome_none]
      rw [decide_eq_true_iff]
      · simp only [List.length_cons]
        omega
    · simp only [List.any_cons, Option.isNone_some, Bool.false_or, ← ih]
      simp only [List.filter, Option.isSome_some, List.length_cons]
      rcases Nat.eq_or_lt_of_le hle with h | h
      · simp [h]
      · have h1 : (rest.filter (fun v : FloatEbmType => v.isSome)).length ≠ rest.length := by omega
        have h2 : (rest.filter (fun v : FloatEbmType => v.isSome)).length + 1 ≠ rest.length + 1 := by omega
        simp [h1, h2]

/-- Every branch of the try phase reports the had-missing flag it was
given. -/
lemma tryPhase_isMissing (env : Oracle) (c : ℕ) (b : Bool) (minV maxV : ℚ) :
    (tryPhase env c b minV maxV).isMissing = some b := by
  unfold tryPhase
  split_ifs <;> rfl

/-- Every branch of the post-sort phase reports the had-missing flag it was
given. -/
lemma gqcpPostSort_isMissing (mb mi : ℤ) (env : Oracle) (b : Bool) (sv : List ℚ) :
    (gqcpPostSort mb mi env b sv).isMissing = some b := by
  unfold gqcpPostSort
  dsimp only
  set cmin := if mi ≤ 0 then 1 else mi.toNat with hcmin
  set cmax := GetCountBinsMax b mb.toNat with hcmax
  set avg := GetAvgLength sv.length cmax cmin with havg
  set scan := firstScan sv avg cmin with hscan
  set cw := checkWindow sv cmin with hcw
  split_ifs <;> first | rfl | apply tryPhase_isMissing

/-- On any call that passes the conversion checks and has a nonempty buffer,
the had-missing flag is written before any later branching, and equals
whether compaction shortened the buffer. -/
lemma gqcp_isMissing_written (seed mb mi : ℤ) (env : Oracle) (l : List FloatEbmType)
    (hne : l ≠ []) (hmb : 0 ≤ mb) (hmi : 0 ≤ mi) :
    (GenerateQuantileCutPoints seed l mb mi env).isMissing =
      some (decide ((RemoveMissingValues l).length ≠ l.length)) := by
  have hlen : ¬(l.length = 0) := by simpa using hne
  unfold GenerateQuantileCutPoints
  rw [if_neg (by omega), if_neg (by omega), if_neg hlen]
  dsimp only
  split
  · rfl
  · exact gqcpPostSort_isMissing _ _ _ _ _

/-- C3: `RemoveMissingValues` compacts the non-NaN values to the front in
their original relative order (it returns exactly the NaN-filtered buffer,
whose length is the count of non-NaN entries), and `GenerateQuantileCutPoints`
sets the had-missing flag to true iff at least one entry was NaN. -/
theorem removeMissingValues_spec (seed mb mi : ℤ) (env : Oracle)
    (l : List FloatEbmType) (hne : l ≠ []) (hmb : 0 ≤ mb) (hmi : 0 ≤ mi) :
    RemoveMissingValues l = l.filter (fun v => v.isSome)
    ∧ (GenerateQuantileCutPoints seed l mb mi env).isMissing =
        some (l.any (fun v => v.isNone)) := by
  refine ⟨RemoveMissingValues_eq_filter l, ?_⟩
  rw [gqcp_isMissing_written seed mb mi env l hne hmb hmi,
    RemoveMissingValues_eq_filter, filter_length_ne_iff_any]

/-- Witness for C3 at a concrete input containing one NaN. -/
theorem removeMissingValues_spec_witness :
    ([some (1 : ℚ), none, some 2] ≠ ([] : List FloatEbmType)) ∧
      RemoveMissingValues [some (1 : ℚ), none, some 2] =
        List.filter (fun v => v.isSome) [some (1 : ℚ), none, some 2] ∧
      (GenerateQuantileCutPoints 7 [some (1 : ℚ), none, some 2] 3 1
          ⟨false, true, true⟩).isMissing =
        some (List.any [some (1 : ℚ), none, some 2] (fun v => v.isNone)) := by
  refine ⟨by simp, ?_, ?_⟩
  · exact (removeMissingValues_spec 7 3 1 ⟨false, true, true⟩ _ (by simp) (by omega) (by omega)).1
  · exact (removeMissingValues_spec 7 3 1 ⟨false, true, true⟩ _ (by simp) (by omega) (by omega)).2

/-- Every branch of the try phase either reports zero cut points with
status 0, or fails with status 1. -/
lemma tryPhase_cuts_or_fail (env : Oracle) (c : ℕ) (b : Bool) (minV maxV : ℚ) :
    (tryPhase env c b minV maxV).countCutPoints = some 0 ∨
      (tryPhase env c b minV maxV).ret = 1 := by
  unfold tryPhase
  split_ifs <;> simp

/-- Every branch of the post-sort phase either reports zero cut points with
status 0, or fails with status 1. -/
lemma gqcpPostSort_cuts_or_fail (mb mi : ℤ) (env : Oracle) (b : Bool) (sv : List ℚ) :
    (gqcpPostSort mb mi env b sv).countCutPoints = some 0 ∨
      (gqcpPostSort mb mi env b sv).ret = 1 := by
  unfold gqcpPostSort
  dsimp only
  set cmin := if mi ≤ 0 then 1 else mi.toNat with hcmin
  set cmax := GetCountBinsMax b mb.toNat with hcmax
  set avg := GetAvgLength sv.length cmax cmin with havg
  set scan := firstScan sv avg cmin with hscan
  set cw := checkWindow sv cmin with hcw
  split_ifs <;> first | left ; rfl | apply tryPhase_cuts_or_fail

/-- Every exit of `GenerateQuantileCutPoints` either wrote zero cut points,
or returned the failure status 1. -/
lemma gqcp_cuts_or_fail (seed : ℤ) (l : List FloatEbmType) (mb mi : ℤ) (env : Oracle) :
    (GenerateQuantileCutPoints seed l mb mi env).countCutPoints = some 0 ∨
      (GenerateQuantileCutPoints seed l mb mi env).ret = 1 := by
  unfold GenerateQuantileCutPoints
  dsimp only
  split_ifs <;> first | left ; rfl | right ; rfl | apply gqcpPostSort_cuts_or_fail

/-- C1: whenever `GenerateQuantileCutPoints` returns status 0, the reported
count of cut points is 0, for every seed, value buffer, maxBins,
minInstancesPerBin and environment: the shipped quota/finalizer logic is
commented out, so line 563 is the only successful cut-count write. -/
theorem gqcp_success_reports_zero_cuts (seed : ℤ) (l : List FloatEbmType)
    (mb mi : ℤ) (env : Oracle)
    (h : (GenerateQuantileCutPoints seed l mb mi env).ret = 0) :
    (GenerateQuantileCutPoints seed l mb mi env).countCutPoints = some 0 := by
  rcases gqcp_cuts_or_fail seed l mb mi env with hc | hr
  · exact hc
  · rw [hr] at h
    exact absurd h (by norm_num)

/-- Witness for C1 at a concrete successful call. -/
theorem gqcp_success_reports_zero_cuts_witness :
    (GenerateQuantileCutPoints 5 [] 0 0 ⟨false, true, true⟩).ret = 0 ∧
      (GenerateQuantileCutPoints 5 [] 0 0 ⟨false, true, true⟩).countCutPoints = some 0 :=
  ⟨by decide, gqcp_success_reports_zero_cuts 5 [] 0 0 ⟨false, true, true⟩ (by decide)⟩

/-- C4: two calls with identical seed, identical input buffer, identical
parameters and identical environment events return the same status and
byte-identical outputs — the embedding of the call is a pure function of
(seed, inputs, environment), with no other state. -/
theorem gqcp_deterministic (seed1 seed2 : ℤ) (l1 l2 : List FloatEbmType)
    (mb1 mb2 mi1 mi2 : ℤ) (env1 env2 : Oracle)
    (hs : seed1 = seed2) (hl : l1 = l2) (hmb : mb1 = mb2) (hmi : mi1 = mi2)
    (henv : env1 = env2) :
    GenerateQuantileCutPoints seed1 l1 mb1 mi1 env1 =
      GenerateQuantileCutPoints seed2 l2 mb2 mi2 env2 := by
  subst hs hl hmb hmi henv
  rfl

/-- Witness for C4 at a concrete pair of identical calls. -/
theorem gqcp_deterministic_witness :
    GenerateQuantileCutPoints 3 [some (1 : ℚ)] 2 1 ⟨false, true, true⟩ =
      GenerateQuantileCutPoints 3 [some (1 : ℚ)] 2 1 ⟨false, true, true⟩ :=
  gqcp_deterministic 3 3 [some (1 : ℚ)] [some (1 : ℚ)] 2 2 1 1
    ⟨false, true, true⟩ ⟨false, true, true⟩ rfl rfl rfl rfl rfl

/-- C9: a call with an empty value buffer (n = 0) succeeds with zero cut
points, missing = false and min = max = 0 (lines 280-284). -/
theorem gqcp_empty_input (seed mb mi : ℤ) (env : Oracle)
    (hmb : 0 ≤ mb) (hmi : 0 ≤ mi) :
    GenerateQuantileCutPoints seed [] mb mi env =
      ⟨0, some 0, some false, some 0, some 0⟩ := by
  unfold GenerateQuantileCutPoints
  rw [if_neg (by omega), if_neg (by omega),
    if_pos (show ([] : List FloatEbmType).length = 0 from rfl)]

/-- Witness for C9 at a concrete call. -/
theorem gqcp_empty_input_witness :
    GenerateQuantileCutPoints 11 [] 5 2 ⟨false, true, true⟩ =
      ⟨0, some 0, some false, some 0, some 0⟩ :=
  gqcp_empty_input 11 5 2 ⟨false, true, true⟩ (by omega) (by omega)

/-- C10: a call whose buffer consists only of NaN values (n ≥ 1, n' = 0)
succeeds with zero cut points, missing = true and min = max = 0
(lines 286-297): the all-missing case is not a failure. -/
theorem gqcp_all_missing (n : ℕ) (seed mb mi : ℤ) (env : Oracle)
    (hn : 1 ≤ n) (hmb : 0 ≤ mb) (hmi : 0 ≤ mi) :
    GenerateQuantileCutPoints seed (List.replicate n none) mb mi env =
      ⟨0, some 0, some true, some 0, some 0⟩ := by
  have hkept : RemoveMissingValues (List.replicate n none) = [] := by
    rw [RemoveMissingValues_eq_filter]
    induction n with
    | zero => rfl
    | succ k ih => simpa [List.replicate_succ] using ih
  unfold GenerateQuantileCutPoints
  rw [if_neg (by omega), if_neg (by omega),
    if_neg (show ¬((List.replicate n (none : FloatEbmType)).length = 0) by
      simp only [List.length_replicate] ; omega)]
  dsimp only
  rw [hkept]
  simp only [List.length_nil, List.length_replicate]
  rw [if_pos trivial]
  have h : ¬((0 : ℕ) = n) := by omega
  simp [h]

/-- Witness for C10 at a concrete all-NaN call. -/
theorem gqcp_all_missing_witness :
    GenerateQuantileCutPoints 9 (List.replicate 3 none) 4 1 ⟨false, true, true⟩ =
      ⟨0, some 0, some true, some 0, some 0⟩ :=
  gqcp_all_missing 3 9 4 1 ⟨false, true, true⟩ (by omega) (by omega) (by omega)

/-- Characterization of the `GetCountBinsMax` probe loop: `binsLoop k m`
(entered with 4 ≤ k) decrements `m` exactly when `m` is one of the probed
powers 2^4 .. 2^k. -/
lemma binsLoop_spec (k m : ℕ) (hk : 4 ≤ k) (hm : 2 ≤ m) :
    ((∃ j, 4 ≤ j ∧ j ≤ k ∧ m = 2 ^ j) → binsLoop k m = m - 1)
    ∧ ((¬∃ j, 4 ≤ j ∧ j ≤ k ∧ m = 2 ^ j) → binsLoop k m = m) := by
  induction k, hk using Nat.le_induction with
  | base =>
    constructor
    · rintro ⟨j, hj4, hjk, hjm⟩
      have hj : j = 4 := by omega
      subst hj
      rw [binsLoop, if_pos hjm.symm]
    · intro hnot
      have hne : ¬(2 ^ 4 = m) := by
        intro h
        exact hnot ⟨4, by omega, by omega, h.symm⟩
      rw [binsLoop, if_neg hne, if_pos (by omega)]
  | succ k hk ih =>
    constructor
    · rintro ⟨j, hj4, hjk, hjm⟩
      by_cases hj : j = k + 1
      · subst hj
        rw [binsLoop, if_pos hjm.symm]
      · have hjk' : j ≤ k := by omega
        by_cases htop : 2 ^ (k + 1) = m
        · rw [binsLoop, if_pos htop]
        · rw [binsLoop, if_neg htop, if_neg (by omega)]
          exact ih.1 ⟨j, hj4, hjk', hjm⟩
    · intro hnot
      have htop : ¬(2 ^ (k + 1) = m) := by
        intro h
        exact hnot ⟨k + 1, by omega, le_refl _, h.symm⟩
      rw [binsLoop, if_neg htop, if_neg (by omega)]
      refine ih.2 ?_
      rintro ⟨j, hj4, hjk', hjm⟩
      exact hnot ⟨j, hj4, by omega, hjm⟩

/-- C6: for 2 ≤ maxBins in the IntEbmType domain (maxBins < 2^63), the
effective maximum bin count `GetCountBinsMax` is maxBins - 1 exactly when
missing values are present and maxBins is a power of two ≥ 16; in every
other case — no missing values, not a power of two, or any value below 16
(in particular 8 through 15) — it is maxBins unchanged. -/
theorem getCountBinsMax_spec (b : Bool) (m : ℕ) (h2 : 2 ≤ m) (hlt : m < 2 ^ 63) :
    ((b = true ∧ 16 ≤ m ∧ ∃ j, m = 2 ^ j) → GetCountBinsMax b m = m - 1)
    ∧ ((¬(b = true ∧ 16 ≤ m ∧ ∃ j, m = 2 ^ j)) → GetCountBinsMax b m = m) := by
  constructor
  · rintro ⟨hb, h16, j, hj⟩
    subst hb
    have hj4 : 4 ≤ j := by
      by_contra hlt4
      have : 2 ^ j < 2 ^ 4 := Nat.pow_lt_pow_right (by omega) (by omega)
      omega
    have hj63 : j ≤ 63 := by
      by_contra hgt
      have : 2 ^ 63 ≤ 2 ^ j := Nat.pow_le_pow_right (by omega) (by omega)
      omega
    unfold GetCountBinsMax
    rw [if_pos rfl]
    exact (binsLoop_spec 63 m (by omega) h2).1 ⟨j, hj4, hj63, hj⟩
  · intro hnot
    cases b with
    | false => rfl
    | true =>
      unfold GetCountBinsMax
      rw [if_pos rfl]
      refine (binsLoop_spec 63 m (by omega) h2).2 ?_
      rintro ⟨j, hj4, hj63, hjm⟩
      refine hnot ⟨rfl, ?_, ⟨j, hjm⟩⟩
      calc (16 : ℕ) = 2 ^ 4 := by norm_num
      _ ≤ 2 ^ j := Nat.pow_le_pow_right (by omega) hj4
      _ = m := hjm.symm

/-- Witness for C6: 16 bins with missing values present become 15. -/
theorem getCountBinsMax_spec_witness :
    GetCountBinsMax true 16 = 15 ∧ GetCountBinsMax true 24 = 24 :=
  ⟨(getCountBinsMax_spec true 16 (by omega) (by norm_num)).1
      ⟨rfl, by omega, ⟨4, by norm_num⟩⟩,
    (getCountBinsMax_spec true 24 (by omega) (by norm_num)).2
      (by
        rintro ⟨-, -, j, hj⟩
        rcases Nat.lt_or_ge j 5 with h | h
        · interval_cases j <;> omega
        · have : 2 ^ 5 ≤ 2 ^ j := Nat.pow_le_pow_right (by omega) h
          omega)⟩

/-- On a nondecreasing list, values at smaller indices are no larger. -/
lemma getD_mono_of_pairwise (l : List ℚ) (hs : l.Pairwise (· ≤ ·))
    {i j : ℕ} (hij : i ≤ j) (hj : j < l.length) :
    l.getD i 0 ≤ l.getD j 0 := by
  rcases Nat.eq_or_lt_of_le hij with h | h
  · subst h
    exact le_refl _
  · rw [List.getD_eq_getElem l 0 (by omega), List.getD_eq_getElem l 0 hj]
    exact List.pairwise_iff_get.1 hs ⟨i, by omega⟩ ⟨j, hj⟩ h

/-- If the first `k` entries satisfy a predicate-defining bound and the rest
refute it, the predicate count is exactly `k`. -/
lemma countP_eq_of_boundary (v : ℚ) :
    ∀ (l : List ℚ) (k : ℕ), k ≤ l.length →
      (∀ j, j < k → l.getD j 0 ≤ v) →
      (∀ j, k ≤ j → j < l.length → v < l.getD j 0) →
      l.countP (fun c => decide (c ≤ v)) = k := by
  intro l
  induction l with
  | nil =>
    intro k hk _ _
    simp at hk
    simp [hk]
  | cons x xs ih =>
    intro k hk h1 h2
    cases k with
    | zero =>
      have hx : v < x := by
        have := h2 0 (by omega) (by simp)
        simpa using this
      rw [List.countP_cons]
      have hxs : xs.countP (fun c => decide (c ≤ v)) = 0 := by
        refine ih 0 (by omega) (by omega) ?_
        intro j _ hj
        have := h2 (j + 1) (by omega) (by simpa using Nat.succ_lt_succ hj)
        simpa using this
      rw [hxs]
      simp [not_le.mpr hx]
    | succ k' =>
      have hx : x ≤ v := by
        have := h1 0 (by omega)
        simpa using this
      rw [List.countP_cons]
      have hxs : xs.countP (fun c => decide (c ≤ v)) = k' := by
        refine ih k' (by simp at hk ; omega) ?_ ?_
        · intro j hj
          have := h1 (j + 1) (by omega)
          simpa using this
        · intro j hj hjl
          have := h2 (j + 1) (by omega) (by simpa using Nat.succ_lt_succ hjl)
          simpa using this
      rw [hxs]
      simp [hx]

/-- One unfolding of the binary-search loop, as an equation. -/
lemma bsearchLoop_unfold (cuts : List ℚ) (v : ℚ) (low high : ℤ) :
    bsearchLoop cuts v low high =
      (let middle := (low + high) / 2
       let midVal := cuts.getD middle.toNat 0
       if midVal ≤ v then
         if middle + 1 ≤ high then bsearchLoop cuts v (middle + 1) high
         else (middle, midVal)
       else
         if low ≤ middle - 1 then bsearchLoop cuts v low (middle - 1)
         else (middle, midVal)) := by
  rw [bsearchLoop]

/-- Correctness of the `Discretize` binary search: on a nondecreasing cut
list, starting from a window whose outside is already classified, the loop's
final `middle`/`midVal`, adjusted as in the source (`middle + 1` when
`midVal ≤ val`), is the number of cut points ≤ `val`. -/
lemma bsearchLoop_spec (cuts : List ℚ) (v : ℚ) (hs : cuts.Pairwise (· ≤ ·)) :
    ∀ (fuel : ℕ) (low high : ℤ), (high - low).toNat ≤ fuel →
      0 ≤ low → low ≤ high → high < (cuts.length : ℤ) →
      (∀ j : ℕ, (j : ℤ) < low → cuts.getD j 0 ≤ v) →
      (∀ j : ℕ, high < (j : ℤ) → j < cuts.length → v < cuts.getD j 0) →
      (if (bsearchLoop cuts v low high).2 ≤ v then (bsearchLoop cuts v low high).1 + 1
        else (bsearchLoop cuts v low high).1) =
        (cuts.countP (fun c => decide (c ≤ v)) : ℤ) := by
  intro fuel
  induction fuel with
  | zero =>
    intro low high hfuel h0 hlh hhl hlo hhi
    have heq : low = high := by omega
    have hmid : (low + high) / 2 = low := by omega
    have hlt : low.toNat < cuts.length := by omega
    by_cases hcv : cuts.getD low.toNat 0 ≤ v
    · have hstep : bsearchLoop cuts v low high = (low, cuts.getD low.toNat 0) := by
        rw [bsearchLoop_unfold]
        dsimp only
        rw [hmid, if_pos hcv, if_neg (by omega)]
      rw [hstep]
      dsimp only
      rw [if_pos hcv]
      have := countP_eq_of_boundary v cuts (low.toNat + 1) (by omega)
        (fun j hj => le_trans (getD_mono_of_pairwise cuts hs (by omega) hlt) hcv)
        (fun j hj hjl => hhi j (by omega) hjl)
      omega
    · have hstep : bsearchLoop cuts v low high = (low, cuts.getD low.toNat 0) := by
        rw [bsearchLoop_unfold]
        dsimp only
        rw [hmid, if_neg hcv, if_neg (by omega)]
      rw [hstep]
      dsimp only
      rw [if_neg hcv]
      have := countP_eq_of_boundary v cuts low.toNat (by omega)
        (fun j hj => hlo j (by omega))
        (fun j hj hjl =>
          lt_of_not_le (fun hc =>
            hcv (le_trans (getD_mono_of_pairwise cuts hs hj hjl) hc)))
      omega
  | succ fuel ih =>
    intro low high hfuel h0 hlh hhl hlo hhi
    have hml : low ≤ (low + high) / 2 := by omega
    have hmh : (low + high) / 2 ≤ high := by omega
    set middle := (low + high) / 2 with hmiddef
    have hmlt : middle.toNat < cuts.length := by omega
    by_cases hcv : cuts.getD middle.toNat 0 ≤ v
    · by_cases hcont : middle + 1 ≤ high
      · have hstep : bsearchLoop cuts v low high = bsearchLoop cuts v (middle + 1) high := by
          rw [bsearchLoop_unfold]
          dsimp only
          rw [← hmiddef, if_pos hcv, if_pos hcont]
        rw [hstep]
        refine ih (middle + 1) high (by omega) (by omega) hcont hhl ?_ hhi
        intro j hj
        rcases Nat.lt_or_ge j middle.toNat with hj' | hj'
        · rcases Int.lt_or_le (j : ℤ) low with hj'' | hj''
          · exact hlo j hj''
          · exact le_trans (getD_mono_of_pairwise cuts hs (by omega) hmlt) hcv
        · have hje : j = middle.toNat := by omega
          subst hje
          exact hcv
      · have hstep : bsearchLoop cuts v low high = (middle, cuts.getD middle.toNat 0) := by
          rw [bsearchLoop_unfold]
          dsimp only
          rw [← hmiddef, if_pos hcv, if_neg hcont]
        rw [hstep]
        dsimp only
        rw [if_pos hcv]
        have := countP_eq_of_boundary v cuts (middle.toNat + 1) (by omega)
          (fun j hj => le_trans (getD_mono_of_pairwise cuts hs (by omega) hmlt) hcv)
          (fun j hj hjl => hhi j (by omega) hjl)
        omega
    · by_cases hcont : low ≤ middle - 1
      · have hstep : bsearchLoop cuts v low high = bsearchLoop cuts v low (middle - 1) := by
          rw [bsearchLoop_unfold]
          dsimp only
          rw [← hmiddef, if_neg hcv, if_pos hcont]
        rw [hstep]
        refine ih low (middle - 1) (by omega) h0 hcont (by omega) hlo ?_
        intro j hj hjl
        rcases Nat.lt_or_ge j middle.toNat with hj' | hj'
        · omega
        · exact lt_of_not_le (fun hc =>
            hcv (le_trans (getD_mono_of_pairwise cuts hs hj' hjl) hc))
      · have hstep : bsearchLoop cuts v low high = (middle, cuts.getD middle.toNat 0) := by
          rw [bsearchLoop_unfold]
          dsimp only
          rw [← hmiddef, if_neg hcv, if_neg hcont]
        rw [hstep]
        dsimp only
        rw [if_neg hcv]
        have := countP_eq_of_boundary v cuts middle.toNat (by omega)
          (fun j hj => hlo j (by omega))
          (fun j hj hjl => lt_of_not_le (fun hc =>
            hcv (le_trans (getD_mono_of_pairwise cuts hs hj hjl) hc)))
        omega

/-- C2: for a strictly increasing nonempty cut list and a non-NaN value `v`,
`Discretize` (per value: `discretizeOne`) assigns the index equal to the
number of cut points ≤ `v` (the unique `i` with `cut[i-1] ≤ v < cut[i]`,
lower side inclusive); with a missing bin every index is shifted up by one
and NaN maps to 0, without one NaN maps to -1. -/
theorem discretize_binary_search_spec (cuts : List ℚ) (v : ℚ)
    (hne : cuts ≠ []) (hsort : cuts.Chain' (· < ·)) :
    (∀ (im : Bool) (vals : List FloatEbmType),
        Discretize im cuts vals = vals.map (discretizeOne im cuts))
    ∧ discretizeOne false cuts (some v) = (cuts.countP (fun c => decide (c ≤ v)) : ℤ)
    ∧ discretizeOne true cuts (some v) = (cuts.countP (fun c => decide (c ≤ v)) : ℤ) + 1
    ∧ discretizeOne false cuts none = -1
    ∧ discretizeOne true cuts none = 0 := by
  have hlen : ¬(cuts.length = 0) := by simpa [List.length_eq_zero] using hne
  have hpair : cuts.Pairwise (· ≤ ·) :=
    (List.chain'_iff_pairwise.1 hsort).imp (fun h => le_of_lt h)
  have hmain := bsearchLoop_spec cuts v hpair ((cuts.length : ℤ) - 1).toNat 0
    ((cuts.length : ℤ) - 1) (by omega) (by omega) (by omega) (by omega)
    (fun j hj => absurd hj (by omega))
    (fun j hj1 hj2 => absurd hj2 (by omega))
  refine ⟨fun im vals => rfl, ?_, ?_, ?_, ?_⟩
  · unfold discretizeOne
    rw [if_neg hlen]
    exact hmain
  · unfold discretizeOne
    rw [if_neg hlen]
    show (if (bsearchLoop cuts v 0 ((cuts.length : ℤ) - 1)).2 ≤ v
        then (bsearchLoop cuts v 0 ((cuts.length : ℤ) - 1)).1 + 2
        else (bsearchLoop cuts v 0 ((cuts.length : ℤ) - 1)).1 + 1) =
      (cuts.countP (fun c => decide (c ≤ v)) : ℤ) + 1
    by_cases hr : (bsearchLoop cuts v 0 ((cuts.length : ℤ) - 1)).2 ≤ v
    · rw [if_pos hr] at hmain ⊢
      omega
    · rw [if_neg hr] at hmain ⊢
      omega
  · unfold discretizeOne
    rw [if_neg hlen]
    rfl
  · unfold discretizeOne
    rw [if_neg hlen]
    rfl

/-- Witness for C2 on the cut list [0, 2] and the value 1. -/
theorem discretize_binary_search_spec_witness :
    (([0, 2] : List ℚ) ≠ [] ∧ ([0, 2] : List ℚ).Chain' (· < ·))
    ∧ discretizeOne false [0, 2] (some 1) =
        (([0, 2] : List ℚ).countP (fun c => decide (c ≤ 1)) : ℤ)
    ∧ discretizeOne true [0, 2] (some 1) =
        (([0, 2] : List ℚ).countP (fun c => decide (c ≤ 1)) : ℤ) + 1
    ∧ discretizeOne false [0, 2] none = -1 := by
  have hc : ([0, 2] : List ℚ).Chain' (· < ·) := by
    norm_num [List.chain'_cons, List.chain'_singleton]
  have h := discretize_binary_search_spec [0, 2] 1 (by simp) hc
  exact ⟨⟨by simp, hc⟩, h.2.1, h.2.2.1, h.2.2.2.1⟩

/-- Round-half-even rounds up by at most 1/2. -/
lemma rhe_le (x : ℚ) : (rhe x : ℚ) ≤ x + 1 / 2 := by
  unfold rhe
  have h1 := Int.floor_le x
  have h2 := Int.lt_floor_add_one x
  split_ifs with ha hb hc
  · linarith
  · push_cast
    linarith
  · linarith
  · push_cast
    have hx : x - (⌊x⌋ : ℚ) = 1 / 2 := le_antisymm (not_lt.1 hb) (not_lt.1 ha)
    linarith

/-- Round-half-even rounds down by at most 1/2. -/
lemma rhe_ge (x : ℚ) : x - 1 / 2 ≤ (rhe x : ℚ) := by
  unfold rhe
  have h1 := Int.floor_le x
  have h2 := Int.lt_floor_add_one x
  split_ifs with ha hb hc
  · linarith
  · push_cast
    linarith
  · have hb' : x - (⌊x⌋ : ℚ) ≤ 1 / 2 := not_lt.1 hb
    linarith
  · push_cast
    linarith

/-- Round-half-even is the identity on integers. -/
lemma rhe_intCast (n : ℤ) : rhe (n : ℚ) = n := by
  unfold rhe
  rw [Int.floor_intCast]
  rw [if_pos (by norm_num)]

/-- Round-half-even is monotone. -/
lemma rhe_mono {x y : ℚ} (h : x ≤ y) : rhe x ≤ rhe y := by
  by_contra hlt
  push_neg at hlt
  have hstep : rhe y + 1 ≤ rhe x := hlt
  have hc : (rhe y : ℚ) + 1 ≤ (rhe x : ℚ) := by exact_mod_cast hstep
  have hx := rhe_le x
  have hy := rhe_ge y
  have hxy : x = y := le_antisymm h (by linarith)
  subst hxy
  omega

/-- The two scale factors of `roundF64` cancel. -/
lemma pow_scale_cancel (e : ℤ) : (2 : ℚ) ^ (52 - e) * 2 ^ (e - 52) = 1 := by
  rw [← zpow_add₀ (two_ne_zero : (2 : ℚ) ≠ 0)]
  norm_num

/-- Splitting off the extra halving in the error term. -/
lemma pow_half_split (e : ℤ) : (2 : ℚ) ^ (e - 53) = 2 ^ (e - 52) * (1 / 2) := by
  rw [show e - 53 = (e - 52) + (-1) by ring, zpow_add₀ (two_ne_zero : (2 : ℚ) ≠ 0)]
  norm_num

/-- Binary64 rounding errs upward by at most half an ulp. -/
lemma roundF64_le (q : ℚ) (hq : 0 < q) :
    roundF64 q ≤ q + 2 ^ (Int.log 2 q - 53) := by
  unfold roundF64
  rw [if_neg (not_le.2 hq)]
  set e := Int.log 2 q with he
  have hpow : (0 : ℚ) < 2 ^ (e - 52) := by positivity
  have h := rhe_le (q * 2 ^ (52 - e))
  calc (rhe (q * 2 ^ (52 - e)) : ℚ) * 2 ^ (e - 52)
      ≤ (q * 2 ^ (52 - e) + 1 / 2) * 2 ^ (e - 52) :=
        mul_le_mul_of_nonneg_right h (le_of_lt hpow)
    _ = q + 2 ^ (e - 53) := by
        rw [add_mul, mul_assoc, pow_scale_cancel, mul_one, pow_half_split]
        ring

/-- Binary64 rounding errs downward by at most half an ulp. -/
lemma roundF64_ge (q : ℚ) (hq : 0 < q) :
    q - 2 ^ (Int.log 2 q - 53) ≤ roundF64 q := by
  unfold roundF64
  rw [if_neg (not_le.2 hq)]
  set e := Int.log 2 q with he
  have hpow : (0 : ℚ) < 2 ^ (e - 52) := by positivity
  have h := rhe_ge (q * 2 ^ (52 - e))
  calc q - 2 ^ (e - 53)
      = (q * 2 ^ (52 - e) - 1 / 2) * 2 ^ (e - 52) := by
        rw [sub_mul, mul_assoc, pow_scale_cancel, mul_one, pow_half_split]
        ring
    _ ≤ (rhe (q * 2 ^ (52 - e)) : ℚ) * 2 ^ (e - 52) :=
        mul_le_mul_of_nonneg_right h (le_of_lt hpow)

/-- A positive rational whose scaled significand is an integer is a binary64
value: rounding leaves it unchanged. -/
lemma roundF64_of_int_scaled (q : ℚ) (hq : 0 < q) (z : ℤ)
    (hz : q * 2 ^ (52 - Int.log 2 q) = (z : ℚ)) : roundF64 q = q := by
  unfold roundF64
  rw [if_neg (not_le.2 hq), hz, rhe_intCast, ← hz, mul_assoc, pow_scale_cancel, mul_one]

/-- Casting a size_t count up to 2^53 to double is exact. -/
lemma toF64_eq_self (n : ℕ) (h : n ≤ 2 ^ 53) : toF64 n = (n : ℚ) := by
  rcases Nat.eq_zero_or_pos n with h0 | h0
  · subst h0
    unfold toF64 roundF64
    rw [if_pos (by norm_num)]
    norm_num
  · have hq : (0 : ℚ) < (n : ℚ) := by exact_mod_cast h0
    have hee : Int.log 2 ((n : ℚ)) = (Nat.log 2 n : ℤ) := Int.log_natCast 2 n
    have he0 : 0 ≤ Int.log 2 ((n : ℚ)) := by rw [hee] ; positivity
    rcases le_or_lt (Int.log 2 ((n : ℚ))) 52 with hle | hgt
    · refine roundF64_of_int_scaled _ hq ((n : ℤ) * 2 ^ (52 - Int.log 2 ((n : ℚ))).toNat) ?_
      have h52 : ((52 - Int.log 2 ((n : ℚ))).toNat : ℤ) = 52 - Int.log 2 ((n : ℚ)) := by omega
      calc (n : ℚ) * 2 ^ (52 - Int.log 2 ((n : ℚ)))
          = (n : ℚ) * 2 ^ (((52 - Int.log 2 ((n : ℚ))).toNat : ℤ)) := by rw [h52]
        _ = (n : ℚ) * (2 : ℚ) ^ ((52 - Int.log 2 ((n : ℚ))).toNat) := by
            rw [zpow_natCast]
        _ = (((n : ℤ) * 2 ^ (52 - Int.log 2 ((n : ℚ))).toNat : ℤ) : ℚ) := by
            push_cast
            ring
    · -- the exponent can only exceed 52 when n = 2^53 itself
      have hpow : ((2 : ℚ)) ^ (Int.log 2 ((n : ℚ))) ≤ (n : ℚ) :=
        Int.zpow_log_le_self (by norm_num) hq
      have h53le : (2 : ℚ) ^ (53 : ℤ) ≤ 2 ^ (Int.log 2 ((n : ℚ))) :=
        zpow_le_zpow_right₀ (by norm_num) (by omega)
      have hcast : ((2 ^ 53 : ℕ) : ℚ) = (2 : ℚ) ^ (53 : ℤ) := by
        norm_num
      have hup : (n : ℚ) ≤ ((2 ^ 53 : ℕ) : ℚ) := by exact_mod_cast h
      have hneq : (n : ℚ) = (2 : ℚ) ^ (53 : ℤ) :=
        le_antisymm (hcast ▸ hup) (le_trans h53le hpow)
      have hn : n = 2 ^ 53 := by
        have : (n : ℚ) = ((2 ^ 53 : ℕ) : ℚ) := by rw [hneq, hcast]
        exact_mod_cast this
      have he53 : Int.log 2 ((n : ℚ)) = 53 := by
        rw [hee, hn,
          show Nat.log 2 (2 ^ 53 : ℕ) = 53 from
            Nat.log_eq_of_pow_le_of_lt_pow (by norm_num) (by norm_num)]
        norm_num
      refine roundF64_of_int_scaled _ hq (2 ^ 52) ?_
      rw [he53, hneq]
      rw [show (52 - 53 : ℤ) = -1 by norm_num]
      rw [← zpow_add₀ (two_ne_zero : (2 : ℚ) ≠ 0)]
      norm_num

/-- Binary64 rounding of a positive value stays at or above 2^(its binade). -/
lemma roundF64_ge_pow (q : ℚ) (hq : 0 < q) :
    (2 : ℚ) ^ Int.log 2 q ≤ roundF64 q := by
  unfold roundF64
  rw [if_neg (not_le.2 hq)]
  set e := Int.log 2 q with he
  have hpow : (0 : ℚ) < 2 ^ (52 - e) := by positivity
  have hpow' : (0 : ℚ) < 2 ^ (e - 52) := by positivity
  have hx : (2 : ℚ) ^ (52 : ℤ) ≤ q * 2 ^ (52 - e) := by
    have hbase : (2 : ℚ) ^ e ≤ q := Int.zpow_log_le_self (by norm_num) hq
    calc (2 : ℚ) ^ (52 : ℤ) = 2 ^ e * 2 ^ (52 - e) := by
          rw [← zpow_add₀ (two_ne_zero : (2 : ℚ) ≠ 0)]
          norm_num
      _ ≤ q * 2 ^ (52 - e) := mul_le_mul_of_nonneg_right hbase (le_of_lt hpow)
  have hcast52 : ((2 ^ 52 : ℤ) : ℚ) = (2 : ℚ) ^ (52 : ℤ) := by norm_num
  have hrhe : (2 ^ 52 : ℤ) ≤ rhe (q * 2 ^ (52 - e)) := by
    have h1 := rhe_ge (q * 2 ^ (52 - e))
    have h2 : ((2 ^ 52 : ℤ) : ℚ) - 1 < (rhe (q * 2 ^ (52 - e)) : ℚ) := by
      rw [hcast52]
      linarith
    have h3 : (2 ^ 52 : ℤ) - 1 < rhe (q * 2 ^ (52 - e)) := by exact_mod_cast h2
    omega
  calc (2 : ℚ) ^ e = ((2 ^ 52 : ℤ) : ℚ) * 2 ^ (e - 52) := by
        rw [hcast52, ← zpow_add₀ (two_ne_zero : (2 : ℚ) ≠ 0)]
        norm_num
    _ ≤ (rhe (q * 2 ^ (52 - e)) : ℚ) * 2 ^ (e - 52) :=
        mul_le_mul_of_nonneg_right (by exact_mod_cast hrhe) (le_of_lt hpow')

/-- Binary64 rounding of a positive value stays below the top of its binade. -/
lemma roundF64_le_pow (q : ℚ) (hq : 0 < q) :
    roundF64 q ≤ (2 : ℚ) ^ (Int.log 2 q + 1) := by
  unfold roundF64
  rw [if_neg (not_le.2 hq)]
  set e := Int.log 2 q with he
  have hpow : (0 : ℚ) < 2 ^ (52 - e) := by positivity
  have hpow' : (0 : ℚ) < 2 ^ (e - 52) := by positivity
  have hx : q * 2 ^ (52 - e) < (2 : ℚ) ^ (53 : ℤ) := by
    have hbase : q < (2 : ℚ) ^ (e + 1) := Int.lt_zpow_succ_log_self (by norm_num) q
    calc q * 2 ^ (52 - e) < (2 : ℚ) ^ (e + 1) * 2 ^ (52 - e) :=
          mul_lt_mul_of_pos_right hbase hpow
      _ = (2 : ℚ) ^ (53 : ℤ) := by
          rw [← zpow_add₀ (two_ne_zero : (2 : ℚ) ≠ 0),
            show e + 1 + (52 - e) = (53 : ℤ) by ring]
  have hcast53 : ((2 ^ 53 : ℤ) : ℚ) = (2 : ℚ) ^ (53 : ℤ) := by norm_num
  have hrhe : rhe (q * 2 ^ (52 - e)) ≤ (2 ^ 53 : ℤ) := by
    have h1 := rhe_le (q * 2 ^ (52 - e))
    have h2 : (rhe (q * 2 ^ (52 - e)) : ℚ) < ((2 ^ 53 : ℤ) : ℚ) + 1 := by
      rw [hcast53]
      linarith
    have h3 : rhe (q * 2 ^ (52 - e)) < (2 ^ 53 : ℤ) + 1 := by exact_mod_cast h2
    omega
  calc (rhe (q * 2 ^ (52 - e)) : ℚ) * 2 ^ (e - 52)
      ≤ ((2 ^ 53 : ℤ) : ℚ) * 2 ^ (e - 52) :=
        mul_le_mul_of_nonneg_right (by exact_mod_cast hrhe) (le_of_lt hpow')
    _ = (2 : ℚ) ^ (e + 1) := by
        rw [hcast53,
          show ((2 : ℚ) ^ (53 : ℤ)) = 2 ^ (53 : ℤ) from rfl,
          ← zpow_add₀ (two_ne_zero : (2 : ℚ) ≠ 0),
          show (53 : ℤ) + (e - 52) = e + 1 by ring]

/-- Binary64 rounding keeps positive values positive. -/
lemma roundF64_pos (q : ℚ) (hq : 0 < q) : 0 < roundF64 q :=
  lt_of_lt_of_le (by positivity) (roundF64_ge_pow q hq)

/-- Binary64 rounding is monotone on positive values. -/
lemma roundF64_mono (q1 q2 : ℚ) (h1 : 0 < q1) (h : q1 ≤ q2) :
    roundF64 q1 ≤ roundF64 q2 := by
  have h2 : (0 : ℚ) < q2 := lt_of_lt_of_le h1 h
  have hee : Int.log 2 q1 ≤ Int.log 2 q2 := Int.log_mono_right h1 h
  rcases eq_or_lt_of_le hee with heq | hlt
  · unfold roundF64
    rw [if_neg (not_le.2 h1), if_neg (not_le.2 h2), ← heq]
    have hpow : (0 : ℚ) ≤ 2 ^ (52 - Int.log 2 q1) := by positivity
    have hm : rhe (q1 * 2 ^ (52 - Int.log 2 q1)) ≤ rhe (q2 * 2 ^ (52 - Int.log 2 q1)) :=
      rhe_mono (mul_le_mul_of_nonneg_right h hpow)
    exact mul_le_mul_of_nonneg_right (by exact_mod_cast hm) (by positivity)
  · calc roundF64 q1 ≤ (2 : ℚ) ^ (Int.log 2 q1 + 1) := roundF64_le_pow q1 h1
      _ ≤ (2 : ℚ) ^ Int.log 2 q2 := zpow_le_zpow_right₀ (by norm_num) (by omega)
      _ ≤ roundF64 q2 := roundF64_ge_pow q2 h2

/-- The exact quotient of counts `n / m` with `n ≤ 2^53` never rounds across
an integer boundary: the ceiling of the correctly rounded quotient is the
exact ceiling.  (This fails for `n > 2^53` — see the counterexample below.) -/
lemma ceil_roundF64_div (n m : ℕ) (hn1 : 1 ≤ n) (hn : n ≤ 2 ^ 53) (hm : 1 ≤ m) :
    ⌈roundF64 ((n : ℚ) / (m : ℚ))⌉ = ⌈(n : ℚ) / (m : ℚ)⌉ := by
  have hn0 : (0 : ℚ) < (n : ℚ) := by exact_mod_cast hn1
  have hm0 : (0 : ℚ) < (m : ℚ)  := by exact_mod_cast hm
  set q : ℚ := (n : ℚ) / (m : ℚ) with hqdef
  have hq : 0 < q := div_pos hn0 hm0
  by_cases hrep : ∃ z : ℤ, q * 2 ^ (52 - Int.log 2 q) = (z : ℚ)
  · obtain ⟨z, hz⟩ := hrep
    rw [roundF64_of_int_scaled q hq z hz]
  · push_neg at hrep
    set e := Int.log 2 q with he
    set k := ⌈q⌉ with hk
    have hmq : (m : ℚ) * q = (n : ℚ) := by
      rw [hqdef]
      field_simp
    have hk1 : 1 ≤ k := by
      have := Int.ceil_pos.2 hq
      omega
    have hqn : q ≤ (n : ℚ) := by
      rw [hqdef]
      exact div_le_self (le_of_lt hn0) (by exact_mod_cast hm)
    have hkn : k ≤ (n : ℤ) := by
      rw [hk, Int.ceil_le]
      exact_mod_cast hqn
    -- upper bound: rounding cannot cross the ceiling upward
    have hkr : roundF64 ((k : ℚ)) = (k : ℚ) := by
      have h1 : ((k.toNat : ℕ) : ℚ) = (k : ℚ) := by
        have := Int.toNat_of_nonneg (show 0 ≤ k by omega)
        exact_mod_cast congrArg (fun z : ℤ => (z : ℚ)) this
      calc roundF64 ((k : ℚ)) = roundF64 ((k.toNat : ℕ) : ℚ) := by rw [h1]
        _ = ((k.toNat : ℕ) : ℚ) := toF64_eq_self k.toNat (by omega)
        _ = (k : ℚ) := h1
    have hkup : ⌈roundF64 q⌉ ≤ k := by
      rw [Int.ceil_le]
      calc roundF64 q ≤ roundF64 ((k : ℚ)) :=
            roundF64_mono q _ hq (by rw [hk] ; exact Int.le_ceil q)
        _ = (k : ℚ) := hkr
    -- strictness of the binade bound: q = 2^e would be representable
    have hstrictpow : (2 : ℚ) ^ e < q := by
      rcases lt_or_eq_of_le (@Int.zpow_log_le_self ℚ _ _ 2 q (by norm_num) hq) with h | h
      · exact h
      · exfalso
        refine hrep (2 ^ 52) ?_
        have h2 : q = (2 : ℚ) ^ e := by
          rw [he]
          exact_mod_cast h.symm
        rw [h2, ← zpow_add₀ (two_ne_zero : (2 : ℚ) ≠ 0),
          show e + (52 - e) = (52 : ℤ) by ring]
        norm_num
    -- half an ulp of q is smaller than 1/m
    have hml : (m : ℚ) * 2 ^ e < 2 ^ (53 : ℤ) := by
      have h1 : (m : ℚ) * 2 ^ e < (m : ℚ) * q := by
        exact mul_lt_mul_of_pos_left hstrictpow hm0
      have h2 : (n : ℚ) ≤ (2 : ℚ) ^ (53 : ℤ)  := by
        have : ((2 ^ 53 : ℕ) : ℚ) = (2 : ℚ) ^ (53 : ℤ) := by norm_num
        rw [← this]
        exact_mod_cast hn
      rw [hmq] at h1
      linarith
    have herr : (2 : ℚ) ^ (e - 53) < 1 / (m : ℚ) := by
      rw [lt_div_iff hm0]
      have hk53 : (0 : ℚ) < (2 : ℚ) ^ (53 : ℤ) := by positivity
      rw [← mul_lt_mul_right hk53]
      calc (2 : ℚ) ^ (e - 53) * (m : ℚ) * 2 ^ (53 : ℤ)
          = (m : ℚ) * ((2 : ℚ) ^ (e - 53) * 2 ^ (53 : ℤ)) := by ring
        _ = (m : ℚ) * 2 ^ e := by
            rw [← zpow_add₀ (two_ne_zero : (2 : ℚ) ≠ 0),
              show e - 53 + 53 = e by ring]
        _ < 2 ^ (53 : ℤ) := hml
        _ = 1 * 2 ^ (53 : ℤ) := by ring
    -- q is at least 1/m above k - 1
    have hqlow : (k : ℚ) - 1 < q := by
      have := Int.ceil_lt_add_one q
      rw [← hk] at this
      linarith
    have hq1m : (k : ℚ) - 1 + 1 / (m : ℚ) ≤ q := by
      have hint : (k - 1) * (m : ℤ) + 1 ≤ (n : ℤ) := by
        have hlt : ((k - 1 : ℤ) : ℚ) * (m : ℚ) < (n : ℚ) := by
          have h1 : ((k : ℚ) - 1) * (m : ℚ) < q * (m : ℚ) :=
            mul_lt_mul_of_pos_right hqlow hm0
          have h2 : q * (m : ℚ) = (n : ℚ) := by rw [mul_comm] ; exact hmq
          push_cast
          rw [← h2]
          exact h1
        have : (k - 1) * (m : ℤ) < (n : ℤ) := by exact_mod_cast hlt
        omega
      have hcast : (((k - 1) * (m : ℤ) + 1 : ℤ) : ℚ) ≤ (n : ℚ) := by exact_mod_cast hint
      have h2 : (((k - 1) * (m : ℤ) + 1 : ℤ) : ℚ) / (m : ℚ) ≤ q := by
        rw [hqdef]
        gcongr
      have h3 : (((k - 1) * (m : ℤ) + 1 : ℤ) : ℚ) / (m : ℚ) = (k : ℚ) - 1 + 1 / (m : ℚ) := by
        push_cast
        field_simp
      linarith
    -- lower bound: rounding stays strictly above k - 1
    have hlow : (k : ℚ) - 1 < roundF64 q := by
      have h1 := roundF64_ge q hq
      rw [← he] at h1
      linarith
    have hkdown : k ≤ ⌈roundF64 q⌉ := by
      have : (k - 1 : ℤ) < ⌈roundF64 q⌉ := Int.lt_ceil.mpr (by push_cast ; linarith)
      omega
    omega

/-- The double-computed ceiling of `cInstances / cMaximumBins` equals the
exact rational ceiling whenever `cInstances ≤ 2^53` — including the case of a
bin count too large to be exactly representable, where both sides are 1. -/
lemma ceil_divF64 (n m : ℕ) (hn1 : 1 ≤ n) (hn : n ≤ 2 ^ 53) (hm : 1 ≤ m) :
    ⌈divF64 (toF64 n) (toF64 m)⌉ = ⌈(n : ℚ) / (m : ℚ)⌉ := by
  have hn0 : (0 : ℚ) < (n : ℚ) := by exact_mod_cast hn1
  have hm0 : (0 : ℚ) < (m : ℚ) := by exact_mod_cast hm
  rcases le_or_lt m (2 ^ 53) with hm53 | hm53
  · rw [show toF64 n = (n : ℚ) from toF64_eq_self n hn,
      show toF64 m = (m : ℚ) from toF64_eq_self m hm53]
    exact ceil_roundF64_div n m hn1 hn hm
  · -- m > 2^53 ≥ n: both quotients lie in (0, 1], both ceilings are 1
    rw [show toF64 n = (n : ℚ) from toF64_eq_self n hn]
    have hlog : (53 : ℤ) ≤ Int.log 2 ((m : ℚ)) := by
      rw [Int.log_natCast]
      have : 53 ≤ Nat.log 2 m :=
        (Nat.pow_le_iff_le_log (by norm_num) (by omega)).1 (by omega)
      exact_mod_cast this
    have hmge : (2 : ℚ) ^ (53 : ℤ) ≤ toF64 m := by
      calc (2 : ℚ) ^ (53 : ℤ) ≤ 2 ^ Int.log 2 ((m : ℚ)) :=
            zpow_le_zpow_right₀ (by norm_num) hlog
        _ ≤ roundF64 ((m : ℚ)) := roundF64_ge_pow _ hm0
    have h53 : ((2 ^ 53 : ℕ) : ℚ) = (2 : ℚ) ^ (53 : ℤ) := by norm_num
    have hnle : (n : ℚ) ≤ (2 : ℚ) ^ (53 : ℤ) := by
      rw [← h53]
      exact_mod_cast hn
    have hm0' : (0 : ℚ) < toF64 m := roundF64_pos _ hm0
    have hq' : (0 : ℚ) < (n : ℚ) / toF64 m := div_pos hn0 hm0'
    have hle1 : (n : ℚ) / toF64 m ≤ 1 := by
      rw [div_le_one hm0']
      exact le_trans hnle hmge
    have hr1 : roundF64 (1 : ℚ) = 1 := by
      have h := toF64_eq_self 1 (by norm_num)
      unfold toF64 at h
      simpa using h
    have hub : divF64 ((n : ℚ)) (toF64 m) ≤ 1 := by
      unfold divF64
      calc roundF64 ((n : ℚ) / toF64 m) ≤ roundF64 1 := roundF64_mono _ _ hq' hle1
        _ = 1 := hr1
    have hlb : 0 < divF64 ((n : ℚ)) (toF64 m) := roundF64_pos _ hq'
    have hceil1 : ⌈divF64 ((n : ℚ)) (toF64 m)⌉ = 1 := by
      have hup : ⌈divF64 ((n : ℚ)) (toF64 m)⌉ ≤ 1 := Int.ceil_le.2 (by exact_mod_cast hub)
      have hdown := Int.ceil_pos.2 hlb
      omega
    have hceil2 : ⌈(n : ℚ) / (m : ℚ)⌉ = 1 := by
      have hqq : (0 : ℚ) < (n : ℚ) / (m : ℚ) := div_pos hn0 hm0
      have hle1' : (n : ℚ) / (m : ℚ) ≤ 1 := by
        rw [div_le_one hm0]
        have : (n : ℕ) ≤ (m : ℕ) := by omega
        exact_mod_cast this
      have hup : ⌈(n : ℚ) / (m : ℚ)⌉ ≤ 1 := Int.ceil_le.2 (by exact_mod_cast hle1')
      have hdown := Int.ceil_pos.2 hqq
      omega
    rw [hceil1, hceil2]

/-- One unfolding of the `GetAvgLength` robustness loop. -/
lemma bumpLoop_succ (fuel a : ℕ) (t : ℚ) :
    bumpLoop (fuel + 1) a t =
      if toF64 a < t then bumpLoop fuel (a + 1) t else a := rfl

/-- GetAvgLength computes max(minInstancesPerBin, exact ceiling) whenever the
instance count is at most 2^53 (where the double arithmetic is exact). -/
lemma getAvgLength_eq (n m mi : ℕ) (hn1 : 1 ≤ n) (hn : n ≤ 2 ^ 53)
    (hm : 2 ≤ m) (hmi : 1 ≤ mi) :
    GetAvgLength n m mi = max mi (⌈(n : ℚ) / (m : ℚ)⌉).toNat := by
  have hn0 : (0 : ℚ) < (n : ℚ) := by exact_mod_cast hn1
  have hm0 : (0 : ℚ) < (m : ℚ) := by exact_mod_cast (show 0 < m by omega)
  set k := ⌈(n : ℚ) / (m : ℚ)⌉ with hk
  have hk1 : 1 ≤ k := by
    have := Int.ceil_pos.2 (div_pos hn0 hm0)
    omega
  have hkn : k ≤ (n : ℤ) := by
    rw [hk, Int.ceil_le]
    exact_mod_cast div_le_self (le_of_lt hn0) (by exact_mod_cast (show 1 ≤ m by omega))
  have hcastk : ((k.toNat : ℕ) : ℚ) = (k : ℚ) := by
    have := Int.toNat_of_nonneg (show 0 ≤ k by omega)
    exact_mod_cast congrArg (fun z : ℤ => (z : ℚ)) this
  unfold GetAvgLength
  rw [show ceilF64 (divF64 (toF64 n) (toF64 m)) = ((k : ℤ) : ℚ) from by
    unfold ceilF64
    rw [ceil_divF64 n m hn1 hn (by omega), hk]]
  dsimp only
  rw [Int.floor_intCast]
  have hbump : bumpLoop (2 * k.toNat + 64) k.toNat ((k : ℚ)) = k.toNat := by
    rw [show 2 * k.toNat + 64 = (2 * k.toNat + 63) + 1 by omega, bumpLoop_succ]
    rw [if_neg]
    rw [show toF64 k.toNat = ((k.toNat : ℕ) : ℚ) from
      toF64_eq_self k.toNat (by omega), hcastk]
    exact lt_irrefl _
  rw [hbump]
  rcases Nat.lt_or_ge k.toNat mi with h | h
  · rw [if_pos h]
    omega
  · rw [if_neg (by omega)]
    omega

/-- 2^53 + 1 is not representable in binary64: the cast rounds it down to
2^53 (ties to even). -/
lemma toF64_pow53_succ : toF64 (2 ^ 53 + 1) = (2 : ℚ) ^ (53 : ℤ) := by
  unfold toF64 roundF64
  have hq : ¬(((2 ^ 53 + 1 : ℕ) : ℚ) ≤ 0) := by
    push_cast
    norm_num
  have hlog : Int.log 2 (((2 ^ 53 + 1 : ℕ) : ℚ)) = 53 := by
    rw [Int.log_natCast,
      show Nat.log 2 (2 ^ 53 + 1) = 53 from
        Nat.log_eq_of_pow_le_of_lt_pow (by norm_num) (by norm_num)]
    norm_num
  rw [if_neg hq, hlog]
  have hx : ((2 ^ 53 + 1 : ℕ) : ℚ) * 2 ^ ((52 : ℤ) - 53) = 2 ^ 52 + 1 / 2 := by
    rw [show (52 : ℤ) - 53 = -1 by norm_num]
    push_cast
    rw [zpow_neg_one]
    norm_num
  rw [hx]
  have hfloor : ⌊(2 ^ 52 + 1 / 2 : ℚ)⌋ = 2 ^ 52 := by
    rw [Int.floor_eq_iff]
    constructor
    · push_cast
      norm_num
    · push_cast
      norm_num
  have hrhe : rhe (2 ^ 52 + 1 / 2 : ℚ) = 2 ^ 52 := by
    unfold rhe
    rw [hfloor]
    rw [if_neg (by push_cast ; norm_num), if_neg (by push_cast ; norm_num),
      if_pos (by norm_num)]
  rw [hrhe]
  push_cast
  norm_num

/-- Evaluation helper: once the double-computed ceiling is known to be the
integer `k` (with 1 ≤ k ≤ 2^53), `GetAvgLength` returns max(mi, k). -/
lemma getAvgLength_of_ceil (n m mi : ℕ) (k : ℤ) (hk1 : 1 ≤ k) (hk53 : k ≤ 2 ^ 53)
    (hceil : ⌈divF64 (toF64 n) (toF64 m)⌉ = k) :
    GetAvgLength n m mi = max mi k.toNat := by
  have hcastk : ((k.toNat : ℕ) : ℚ) = (k : ℚ) := by
    have := Int.toNat_of_nonneg (show 0 ≤ k by omega)
    exact_mod_cast congrArg (fun z : ℤ => (z : ℚ)) this
  unfold GetAvgLength
  rw [show ceilF64 (divF64 (toF64 n) (toF64 m)) = ((k : ℤ) : ℚ) from by
    unfold ceilF64
    rw [hceil]]
  dsimp only
  rw [Int.floor_intCast]
  have hbump : bumpLoop (2 * k.toNat + 64) k.toNat ((k : ℚ)) = k.toNat := by
    rw [show 2 * k.toNat + 64 = (2 * k.toNat + 63) + 1 by omega, bumpLoop_succ]
    rw [if_neg]
    rw [show toF64 k.toNat = ((k.toNat : ℕ) : ℚ) from
      toF64_eq_self k.toNat (by omega), hcastk]
    exact lt_irrefl _
  rw [hbump]
  rcases Nat.lt_or_ge k.toNat mi with h | h
  · rw [if_pos h]
    omega
  · rw [if_neg (by omega)]
    omega

/-- The double-computed ceiling at n = 2^53 + 1, m = 2 comes out one too
small: the cast of n rounds to 2^53 and the quotient is exactly 2^52. -/
lemma ceil_divF64_pow53_succ :
    ⌈divF64 (toF64 (2 ^ 53 + 1)) (toF64 2)⌉ = 2 ^ 52 := by
  rw [toF64_pow53_succ, show toF64 2 = ((2 : ℕ) : ℚ) from toF64_eq_self 2 (by norm_num)]
  have hdiv : (2 : ℚ) ^ (53 : ℤ) / ((2 : ℕ) : ℚ) = ((2 ^ 52 : ℕ) : ℚ) := by
    push_cast
    norm_num
  unfold divF64
  rw [hdiv, show roundF64 (((2 ^ 52 : ℕ) : ℚ)) = ((2 ^ 52 : ℕ) : ℚ) from
    toF64_eq_self (2 ^ 52) (by norm_num)]
  rw [show ((2 ^ 52 : ℕ) : ℚ) = (((2 ^ 52 : ℤ)) : ℚ) by push_cast ; norm_num]
  rw [Int.ceil_intCast]

/-- C7 counterexample: at n' = 2^53 + 1, maxBins = 2, minInstancesPerBin = 1,
`GetAvgLength` returns 2^52, strictly below the exact integer ceiling
2^52 + 1 of n' / maxBins: the claimed robustness against floating-point
understatement fails once the instance count exceeds 2^53. -/
theorem getAvgLength_counterexample :
    GetAvgLength (2 ^ 53 + 1) 2 1 = 2 ^ 52
    ∧ (⌈((2 ^ 53 + 1 : ℕ) : ℚ) / ((2 : ℕ) : ℚ)⌉).toNat = 2 ^ 52 + 1
    ∧ GetAvgLength (2 ^ 53 + 1) 2 1 <
        max 1 (⌈((2 ^ 53 + 1 : ℕ) : ℚ) / ((2 : ℕ) : ℚ)⌉).toNat := by
  have hceil : ⌈((2 ^ 53 + 1 : ℕ) : ℚ) / ((2 : ℕ) : ℚ)⌉ = 2 ^ 52 + 1 := by
    rw [show (⌈((2 ^ 53 + 1 : ℕ) : ℚ) / ((2 : ℕ) : ℚ)⌉ = 2 ^ 52 + 1) ↔
        (((2 ^ 52 + 1 : ℤ) : ℚ) - 1 < ((2 ^ 53 + 1 : ℕ) : ℚ) / ((2 : ℕ) : ℚ)
          ∧ ((2 ^ 53 + 1 : ℕ) : ℚ) / ((2 : ℕ) : ℚ) ≤ ((2 ^ 52 + 1 : ℤ) : ℚ)) from
      Int.ceil_eq_iff]
    constructor
    · push_cast
      rw [lt_div_iff (by norm_num)]
      norm_num
    · push_cast
      rw [div_le_iff (by norm_num)]
      norm_num
  have htn : ((2 ^ 52 + 1 : ℤ)).toNat = 2 ^ 52 + 1 := by decide
  have htn' : ((2 ^ 52 : ℤ)).toNat = 2 ^ 52 := by decide
  have hval : GetAvgLength (2 ^ 53 + 1) 2 1 = 2 ^ 52 := by
    rw [getAvgLength_of_ceil (2 ^ 53 + 1) 2 1 (2 ^ 52) (by norm_num) (by norm_num)
      ceil_divF64_pow53_succ, htn']
    norm_num
  refine ⟨hval, ?_, ?_⟩
  · rw [hceil, htn]
  · rw [hval, hceil, htn]
    norm_num

/-- C7 (amended): for n' ≤ 2^53 (where binary64 represents the count
exactly), `GetAvgLength` returns max(minInstancesPerBin, exact integer
ceiling of n' / effectiveMaxBins); beyond 2^53 only the double-precision
ceiling is returned, which can understate the true ceiling (see the
counterexample). -/
theorem getAvgLength_exact_ceiling_below_2pow53 (n m mi : ℕ)
    (hn1 : 1 ≤ n) (hn : n ≤ 2 ^ 53) (hm : 2 ≤ m) (hmi : 1 ≤ mi) :
    GetAvgLength n m mi = max mi (⌈(n : ℚ) / (m : ℚ)⌉).toNat :=
  getAvgLength_eq n m mi hn1 hn hm hmi

/-- Witness for C7 (amended) at n' = 10, maxBins = 3, min = 2. -/
theorem getAvgLength_exact_ceiling_below_2pow53_witness :
    ((1 : ℕ) ≤ 10 ∧ (10 : ℕ) ≤ 2 ^ 53 ∧ (2 : ℕ) ≤ 3 ∧ (1 : ℕ) ≤ 2)
    ∧ GetAvgLength 10 3 2 = max 2 (⌈((10 : ℕ) : ℚ) / ((3 : ℕ) : ℚ)⌉).toNat :=
  ⟨⟨by norm_num, by norm_num, by norm_num, by norm_num⟩,
    getAvgLength_exact_ceiling_below_2pow53 10 3 2 (by norm_num) (by norm_num)
      (by norm_num) (by norm_num)⟩

/-- Every branch of the try phase either leaves the cut count unwritten, or
succeeds with status 0. -/
lemma tryPhase_none_or_success (env : Oracle) (c : ℕ) (b : Bool) (minV maxV : ℚ) :
    (tryPhase env c b minV maxV).countCutPoints = none ∨
      (tryPhase env c b minV maxV).ret = 0 := by
  unfold tryPhase
  split_ifs <;> simp

/-- Every branch of the post-sort phase either leaves the cut count
unwritten, or succeeds with status 0. -/
lemma gqcpPostSort_none_or_success (mb mi : ℤ) (env : Oracle) (b : Bool) (sv : List ℚ) :
    (gqcpPostSort mb mi env b sv).countCutPoints = none ∨
      (gqcpPostSort mb mi env b sv).ret = 0 := by
  unfold gqcpPostSort
  dsimp only
  set cmin := if mi ≤ 0 then 1 else mi.toNat with hcmin
  set cmax := GetCountBinsMax b mb.toNat with hcmax
  set avg := GetAvgLength sv.length cmax cmin with havg
  set scan := firstScan sv avg cmin with hscan
  set cw := checkWindow sv cmin with hcw
  split_ifs <;> first | right ; rfl | apply tryPhase_none_or_success

/-- On every exit of `GenerateQuantileCutPoints`, either the cut count was
never written, or the call succeeded. -/
lemma gqcp_none_or_success (seed : ℤ) (l : List FloatEbmType) (mb mi : ℤ) (env : Oracle) :
    (GenerateQuantileCutPoints seed l mb mi env).countCutPoints = none ∨
      (GenerateQuantileCutPoints seed l mb mi env).ret = 0 := by
  unfold GenerateQuantileCutPoints
  dsimp only
  split_ifs <;> first | left ; rfl | right ; rfl | apply gqcpPostSort_none_or_success

/-- C5 (amended): on every failing call (nonzero status) the cut-count
out-parameter is never written — it holds whatever the caller left there, not
a zeroed or otherwise specified value.  (On the size-conversion failures no
output at all is written; on the later failure paths the had-missing flag and
min/max have already received their computed values.) -/
theorem gqcp_failure_leaves_cut_count_unwritten (seed : ℤ) (l : List FloatEbmType)
    (mb mi : ℤ) (env : Oracle)
    (h : (GenerateQuantileCutPoints seed l mb mi env).ret ≠ 0) :
    (GenerateQuantileCutPoints seed l mb mi env).countCutPoints = none := by
  rcases gqcp_none_or_success seed l mb mi env with hc | hr
  · exact hc
  · exact absurd hr h

/-- A sorted rational list is a fixed point of the model's `std::sort`. -/
lemma mergeSort_of_sorted (l : List ℚ) (h : l.Pairwise (· ≤ ·)) :
    l.mergeSort (fun a b => decide (a ≤ b)) = l := by
  refine List.eq_of_perm_of_sorted (List.mergeSort_perm l _) ?_ h
  have hs := @List.sorted_mergeSort ℚ (fun a b : ℚ => decide (a ≤ b))
    (fun a b c hab hbc => by
      simp only [decide_eq_true_eq] at *
      exact le_trans hab hbc)
    (fun a b => by
      simp only [decide_eq_true_eq, Bool.or_eq_true]
      exact le_total a b)
    l
  exact hs.imp (fun hd => by simpa using hd)

/-- Concrete evaluation of a call that reaches the allocation and fails
there: the buffer [1, 2] with maxBins 2, minInstancesPerBin 1 reaches
`malloc`, which the environment makes fail; the call returns status 1 with
the cut count unwritten while missing/min/max hold the computed values. -/
lemma gqcp_alloc_fail_eval :
    GenerateQuantileCutPoints 0 [some 1, some 2] 2 1 ⟨false, true, false⟩ =
      ⟨1, none, some false, some 1, some 2⟩ := by
  have hkept : RemoveMissingValues [some (1 : ℚ), some 2] = [some 1, some 2] := rfl
  have hsorted : (List.filterMap id (RemoveMissingValues [some (1 : ℚ), some 2])).mergeSort
      (fun a b => decide (a ≤ b)) = [1, 2] := by
    rw [hkept, show List.filterMap id [some (1 : ℚ), some 2] = [1, 2] from rfl]
    exact mergeSort_of_sorted [1, 2] (by norm_num)
  unfold GenerateQuantileCutPoints
  rw [if_neg (by omega), if_neg (by omega), if_neg (by norm_num)]
  dsimp only
  rw [if_neg (by rw [hkept] ; norm_num)]
  rw [hsorted, hkept]
  norm_num
  unfold gqcpPostSort
  dsimp only
  rw [if_neg (by norm_num)]
  rw [show (if (1 : ℤ) ≤ 0 then 1 else (1 : ℤ).toNat) = 1 from rfl]
  rw [if_neg (by norm_num)]
  rw [show GetCountBinsMax false (2 : ℤ).toNat = 2 from rfl]
  rw [show ([(1 : ℚ), 2] : List ℚ).length = 2 from rfl]
  rw [getAvgLength_eq 2 2 1 (by norm_num) (by norm_num) (by norm_num) (by norm_num)]
  rw [show max 1 (⌈((2 : ℕ) : ℚ) / ((2 : ℕ) : ℚ)⌉).toNat = 1 from by norm_num]
  have hscan : firstScan [(1 : ℚ), 2] 1 1 = ⟨2, 1, 1, 0⟩ := by decide
  rw [hscan]
  rw [if_neg (by norm_num)]
  rw [if_pos (by norm_num)]
  decide

/-- C5 counterexample: on the allocation-failure path the call fails with
status 1 yet the cut-count out-parameter is left unwritten (while the
had-missing flag and min/max were already written), so the outputs are not
all left in a well-defined, specified state. -/
theorem gqcp_failure_output_counterexample :
    (GenerateQuantileCutPoints 0 [some 1, some 2] 2 1 ⟨false, true, false⟩).ret = 1
    ∧ (GenerateQuantileCutPoints 0 [some 1, some 2] 2 1
        ⟨false, true, false⟩).countCutPoints = none
    ∧ (GenerateQuantileCutPoints 0 [some 1, some 2] 2 1
        ⟨false, true, false⟩).isMissing = some false := by
  rw [gqcp_alloc_fail_eval]
  exact ⟨rfl, rfl, rfl⟩

/-- Witness for C5 (amended) on the concrete failing call. -/
theorem gqcp_failure_leaves_cut_count_unwritten_witness :
    (GenerateQuantileCutPoints 0 [some 1, some 2] 2 1 ⟨false, true, false⟩).ret ≠ 0
    ∧ (GenerateQuantileCutPoints 0 [some 1, some 2] 2 1
        ⟨false, true, false⟩).countCutPoints = none :=
  ⟨by rw [gqcp_alloc_fail_eval] ; decide,
    gqcp_failure_leaves_cut_count_unwritten 0 [some 1, some 2] 2 1 ⟨false, true, false⟩
      (by rw [gqcp_alloc_fail_eval] ; decide)⟩

/-- Unfolding of the Fisher-Yates swap loop: empty block. -/
lemma fisherYates_nil {α : Type} (rs : RandomStream) :
    fisherYates rs ([] : List α) = ([], rs) := by
  rw [fisherYates]

/-- Unfolding of the Fisher-Yates swap loop: singleton block (no draw). -/
lemma fisherYates_single {α : Type} (rs : RandomStream) (a : α) :
    fisherYates rs [a] = ([a], rs) := by
  rw [fisherYates]

/-- One unfolding of the Fisher-Yates swap loop on a block of two or more. -/
lemma fisherYates_cons2 {α : Type} (rs : RandomStream) (a b : α) (l : List α) :
    fisherYates rs (a :: b :: l) =
      ((a :: b :: l).getD (rs.next (a :: b :: l).length).1 a ::
          (fisherYates (rs.next (a :: b :: l).length).2
            (((a :: b :: l).set (rs.next (a :: b :: l).length).1 a).tail)).1,
        (fisherYates (rs.next (a :: b :: l).length).2
          (((a :: b :: l).set (rs.next (a :: b :: l).length).1 a).tail)).2) := by
  rw [fisherYates]

/-- Taking out the element at position `j` and writing `a` there is, up to
permutation, the same as pushing `a` on the front. -/
lemma getD_set_perm {α : Type} :
    ∀ (l : List α) (j : ℕ) (a : α), j < l.length →
      (l.getD j a :: l.set j a).Perm (a :: l) := by
  intro l
  induction l with
  | nil =>
    intro j a h
    simp at h
  | cons x xs ih =>
    intro j a h
    cases j with
    | zero =>
      simp only [List.getD_cons_zero, List.set_cons_zero]
      exact List.Perm.swap a x xs
    | succ j =>
      simp only [List.getD_cons_succ, List.set_cons_succ]
      refine List.Perm.trans (List.Perm.swap _ _ _) ?_
      refine List.Perm.trans (List.Perm.cons x (ih j a (by simpa using h))) ?_
      exact List.Perm.swap _ _ _

/-- The head emitted by one swap step (the element drawn at position `i`,
with the old front element written back at `i`) together with the remaining
block is a permutation of the whole block. -/
lemma getD_cons_set_tail_perm {α : Type} (x : α) (xs : List α) (i : ℕ)
    (hi : i < (x :: xs).length) :
    ((x :: xs).getD i x :: ((x :: xs).set i x).tail).Perm (x :: xs) := by
  cases i with
  | zero =>
    simp only [List.getD_cons_zero, List.set_cons_zero, List.tail_cons]
    exact List.Perm.refl _
  | succ j =>
    simp only [List.getD_cons_succ, List.set_cons_succ, List.tail_cons]
    exact getD_set_perm xs j x (by simpa using hi)

/-- The swap loop permutes its block. -/
lemma fisherYates_perm_aux {α : Type} :
    ∀ (n : ℕ) (l : List α), l.length ≤ n → ∀ (rs : RandomStream),
      ((fisherYates rs l).1).Perm l := by
  intro n
  induction n with
  | zero =>
    intro l hl rs
    have hnil : l = [] := by
      cases l with
      | nil => rfl
      | cons a t => simp at hl
    subst hnil
    rw [fisherYates_nil]
  | succ n ih =>
    intro l hl rs
    match l with
    | [] =>
      rw [fisherYates_nil]
    | [a] =>
      rw [fisherYates_single]
    | a :: b :: l =>
      rw [fisherYates_cons2]
      have hilt : (rs.next (a :: b :: l).length).1 < (a :: b :: l).length := by
        unfold RandomStream.next
        exact Nat.mod_lt _ (by simp)
      have htl : ((((a :: b :: l)).set (rs.next (a :: b :: l).length).1 a).tail).length ≤ n := by
        simp only [List.length_tail, List.length_set]
        simp only [List.length_cons] at hl ⊢
        omega
      have hrec := ih _ htl ((rs.next (a :: b :: l).length).2)
      exact List.Perm.trans (hrec.cons _) (getD_cons_set_tail_perm a (b :: l) _ hilt)

/-- The swap loop of lines 68-75 (and its three copies) permutes its
block. -/
lemma fisherYates_perm {α : Type} (rs : RandomStream) (l : List α) :
    ((fisherYates rs l).1).Perm l :=
  fisherYates_perm_aux l.length l (le_refl _) rs

/-- The single-pass block scan of the sorts is the same computation as
"split into maximal equal-key blocks, then shuffle each block": refinement of
the loop to the spec's description. -/
lemma shuffleRunsAux_eq_shuffleGroups {α : Type} (keyEq : α → α → Bool) :
    ∀ (rest : List α) (rs : RandomStream) (run : List α),
      shuffleRunsAux keyEq rs run rest = shuffleGroups rs (runsByAux keyEq run rest) := by
  intro rest
  induction rest with
  | nil =>
    intro rs run
    simp [shuffleRunsAux, runsByAux, shuffleGroups]
  | cons x xs ih =>
    intro rs run
    by_cases h : keyEq (run.headD x) x
    · simp only [shuffleRunsAux, runsByAux, if_pos h]
      exact ih rs (run ++ [x])
    · simp only [shuffleRunsAux, runsByAux, if_neg h, shuffleGroups]
      rw [ih]

/-- The maximal blocks concatenate back to the scanned list. -/
lemma runsByAux_flatten {α : Type} (keyEq : α → α → Bool) :
    ∀ (rest : List α) (run : List α),
      (runsByAux keyEq run rest).flatten = run ++ rest := by
  intro rest
  induction rest with
  | nil =>
    intro run
    simp [runsByAux]
  | cons x xs ih =>
    intro run
    by_cases h : keyEq (run.headD x) x
    · simp only [runsByAux, if_pos h]
      rw [ih]
      simp
    · simp only [runsByAux, if_neg h, List.flatten_cons]
      rw [ih]
      simp

/-- Blockwise shuffling permutes the concatenation of the blocks. -/
lemma shuffleGroups_perm {α : Type} :
    ∀ (gs : List (List α)) (rs : RandomStream),
      (shuffleGroups rs gs).Perm gs.flatten := by
  intro gs
  induction gs with
  | nil =>
    intro rs
    simp [shuffleGroups]
  | cons g gs ih =>
    intro rs
    simp only [shuffleGroups, List.flatten_cons]
    exact (fisherYates_perm rs g).append (ih _)

/-- Every block produced by the scan is nonempty and internally key-equal
(given a symmetric/transitive/reflexive key-equality test). -/
lemma runsByAux_groups {α : Type} (keyEq : α → α → Bool)
    (hsymm : ∀ x y, keyEq x y = keyEq y x)
    (htrans : ∀ x y z, keyEq x y = true → keyEq y z = true → keyEq x z = true)
    (hrefl : ∀ x, keyEq x x = true) :
    ∀ (rest : List α) (run : List α), run ≠ [] →
      (∀ x ∈ run, ∀ y ∈ run, keyEq x y = true) →
      ∀ g ∈ runsByAux keyEq run rest, g ≠ [] ∧ ∀ x ∈ g, ∀ y ∈ g, keyEq x y = true := by
  intro rest
  induction rest with
  | nil =>
    intro run hne hconst g hg
    simp only [runsByAux, List.mem_singleton] at hg
    subst hg
    exact ⟨hne, hconst⟩
  | cons x xs ih =>
    intro run hne hconst g hg
    by_cases h : keyEq (run.headD x) x
    · rw [runsByAux, if_pos h] at hg
      refine ih (run ++ [x]) (by simp) ?_ g hg
      have hhead : run.headD x ∈ run := by
        cases run with
        | nil => exact absurd rfl hne
        | cons r rest' => simp
      intro u hu v hv
      simp only [List.mem_append, List.mem_singleton] at hu hv
      rcases hu with hu | hu <;> rcases hv with hv | hv
      · exact hconst u hu v hv
      · rw [hv]
        exact htrans u (run.headD x) x (hconst u hu _ hhead) h
      · rw [hu]
        have hvx : keyEq v x = true := htrans v (run.headD x) x (hconst v hv _ hhead) h
        rw [hsymm]
        exact hvx
      · rw [hu, hv]
        exact hrefl x
    · rw [runsByAux, if_neg h] at hg
      rcases List.mem_cons.1 hg with hg | hg
      · subst hg
        exact ⟨hne, hconst⟩
      · refine ih [x] (by simp) ?_ g hg
        intro u hu v hv
        simp only [List.mem_singleton] at hu hv
        rw [hu, hv]
        exact hrefl x

/-- Blockwise shuffling preserves any pairwise relation that holds on the
concatenation, provided equal-key elements are always related. -/
lemma shuffleGroups_pairwise {α : Type} (R : α → α → Prop) (keyEq : α → α → Bool)
    (hRofEq : ∀ x y, keyEq x y = true → R x y) :
    ∀ (gs : List (List α)) (rs : RandomStream),
      (∀ g ∈ gs, ∀ x ∈ g, ∀ y ∈ g, keyEq x y = true) →
      List.Pairwise R gs.flatten →
      List.Pairwise R (shuffleGroups rs gs) := by
  intro gs
  induction gs with
  | nil =>
    intro rs _ _
    simp [shuffleGroups]
  | cons g gs ih =>
    intro rs hconst hpair
    simp only [List.flatten_cons] at hpair
    rw [List.pairwise_append] at hpair
    obtain ⟨hg, hrest, hcross⟩ := hpair
    simp only [shuffleGroups]
    rw [List.pairwise_append]
    refine ⟨?_, ?_, ?_⟩
    · refine List.pairwise_of_forall_mem_list ?_
      intro u hu v hv
      have hu' : u ∈ g := ((fisherYates_perm rs g).mem_iff).1 hu
      have hv' : v ∈ g := ((fisherYates_perm rs g).mem_iff).1 hv
      exact hRofEq u v (hconst g (by simp) u hu' v hv')
    · exact ih _ (fun g' hg' => hconst g' (by simp [hg'])) hrest
    · intro u hu v hv
      have hu' : u ∈ g := ((fisherYates_perm rs g).mem_iff).1 hu
      have hv' : v ∈ gs.flatten := ((shuffleGroups_perm gs _).mem_iff).1 hv
      exact hcross u hu' v hv'

/-- The ascending comparator is transitive. -/
lemma ascLe_trans (a b c : SplittingRange) :
    ascLe a b = true → ascLe b c = true → ascLe a c = true := by
  intro h1 h2
  unfold ascLe at h1 h2 ⊢
  split_ifs at h1 h2 ⊢ <;> simp only [decide_eq_true_eq] at h1 h2 ⊢ <;> omega

/-- The ascending comparator is total. -/
lemma ascLe_total (a b : SplittingRange) : (ascLe a b || ascLe b a) = true := by
  unfold ascLe
  split_ifs <;> simp only [Bool.or_eq_true, decide_eq_true_eq] <;> omega

/-- The descending comparator is transitive. -/
lemma descLe_trans (a b c : SplittingRange) :
    descLe a b = true → descLe b c = true → descLe a c = true := by
  intro h1 h2
  unfold descLe at h1 h2 ⊢
  split_ifs at h1 h2 ⊢ <;> simp only [decide_eq_true_eq] at h1 h2 ⊢ <;> omega

/-- The descending comparator is total. -/
lemma descLe_total (a b : SplittingRange) : (descLe a b || descLe b a) = true := by
  unfold descLe
  split_ifs <;> simp only [Bool.or_eq_true, decide_eq_true_eq] <;> omega

/-- Key-equality tests: symmetry, transitivity, reflexivity. -/
lemma ascKeyEq_symm (x y : SplittingRange) : ascKeyEq x y = ascKeyEq y x := by
  unfold ascKeyEq
  by_cases h : x.m_cSplittableItems = y.m_cSplittableItems
  · simp [h]
  · simp [h, Ne.symm h]

lemma ascKeyEq_trans (x y z : SplittingRange) :
    ascKeyEq x y = true → ascKeyEq y z = true → ascKeyEq x z = true := by
  unfold ascKeyEq
  simp only [beq_iff_eq]
  omega

lemma ascKeyEq_refl (x : SplittingRange) : ascKeyEq x x = true := by
  simp [ascKeyEq]

lemma descKeyEq_symm (x y : SplittingRange) : descKeyEq x y = descKeyEq y x := by
  unfold descKeyEq
  rw [Bool.eq_iff_iff]
  simp only [Bool.and_eq_true, beq_iff_eq]
  constructor <;> rintro ⟨hm, hn⟩ <;> exact ⟨hm.symm, hn.symm⟩

lemma descKeyEq_trans (x y z : SplittingRange) :
    descKeyEq x y = true → descKeyEq y z = true → descKeyEq x z = true := by
  unfold descKeyEq
  simp only [Bool.and_eq_true, beq_iff_eq]
  omega

lemma descKeyEq_refl (x : SplittingRange) : descKeyEq x x = true := by
  simp [descKeyEq]

/-- Structure of the ascending fair orderer: permutation, primary-key
sortedness, and equality with the spec-side stable-sort-then-block-shuffle
description. -/
lemma sortAsc_spec (rs : RandomStream) (l : List SplittingRange) (h : l ≠ []) :
    (SortSplittingRangesByCountItemsAscending rs l).Perm l
    ∧ List.Pairwise (fun r1 r2 => r1.m_cSplittableItems ≤ r2.m_cSplittableItems)
        (SortSplittingRangesByCountItemsAscending rs l)
    ∧ SortSplittingRangesByCountItemsAscending rs l = fairOrderingAscending rs l := by
  cases hms : l.mergeSort ascLe with
  | nil =>
    exfalso
    have hp := List.mergeSort_perm l ascLe
    rw [hms] at hp
    exact h hp.symm.eq_nil
  | cons a rest =>
    have hunf : SortSplittingRangesByCountItemsAscending rs l =
        shuffleGroups rs (runsByAux ascKeyEq [a] rest) := by
      unfold SortSplittingRangesByCountItemsAscending
      rw [hms]
      exact shuffleRunsAux_eq_shuffleGroups ascKeyEq rest rs [a]
    have hfair : fairOrderingAscending rs l =
        shuffleGroups rs (runsByAux ascKeyEq [a] rest) := by
      unfold fairOrderingAscending runsBy
      rw [hms]
    have hflat : (runsByAux ascKeyEq [a] rest).flatten = a :: rest := by
      rw [runsByAux_flatten]
      rfl
    have hperm : (shuffleGroups rs (runsByAux ascKeyEq [a] rest)).Perm l := by
      refine (shuffleGroups_perm _ _).trans ?_
      rw [hflat, ← hms]
      exact List.mergeSort_perm l ascLe
    have hsorted : List.Pairwise (fun r1 r2 => ascLe r1 r2 = true) (a :: rest) := by
      rw [← hms]
      exact List.sorted_mergeSort ascLe_trans ascLe_total l
    refine ⟨?_, ?_, ?_⟩
    · rw [hunf]
      exact hperm
    · rw [hunf]
      refine shuffleGroups_pairwise _ ascKeyEq ?_ _ rs ?_ ?_
      · intro x y hxy
        have hxy' : x.m_cSplittableItems = y.m_cSplittableItems := by
          simpa [ascKeyEq] using hxy
        omega
      · intro g hg
        refine (runsByAux_groups ascKeyEq ascKeyEq_symm ascKeyEq_trans ascKeyEq_refl
          rest [a] (by simp) ?_ g hg).2
        intro u hu v hv
        simp only [List.mem_singleton] at hu hv
        rw [hu, hv]
        exact ascKeyEq_refl a
      · rw [hflat]
        refine hsorted.imp ?_
        intro x y hxy
        unfold ascLe at hxy
        split_ifs at hxy <;> simp only [decide_eq_true_eq] at hxy <;> omega
    · rw [hunf, hfair]

/-- Structure of the descending fair orderer: permutation, compound-key
sortedness (descending), and equality with the spec-side description. -/
lemma sortDesc_spec (rs : RandomStream) (l : List SplittingRange) (h : l ≠ []) :
    (SortSplittingRangesByUnsplittableDescending rs l).Perm l
    ∧ List.Pairwise (fun r1 r2 =>
        r2.m_cUnsplittableEitherSideMax < r1.m_cUnsplittableEitherSideMax
        ∨ (r2.m_cUnsplittableEitherSideMax = r1.m_cUnsplittableEitherSideMax
            ∧ r2.m_cUnsplittableEitherSideMin ≤ r1.m_cUnsplittableEitherSideMin))
        (SortSplittingRangesByUnsplittableDescending rs l)
    ∧ SortSplittingRangesByUnsplittableDescending rs l = fairOrderingDescending rs l := by
  cases hms : l.mergeSort descLe with
  | nil =>
    exfalso
    have hp := List.mergeSort_perm l descLe
    rw [hms] at hp
    exact h hp.symm.eq_nil
  | cons a rest =>
    have hunf : SortSplittingRangesByUnsplittableDescending rs l =
        shuffleGroups rs (runsByAux descKeyEq [a] rest) := by
      unfold SortSplittingRangesByUnsplittableDescending
      rw [hms]
      exact shuffleRunsAux_eq_shuffleGroups descKeyEq rest rs [a]
    have hfair : fairOrderingDescending rs l =
        shuffleGroups rs (runsByAux descKeyEq [a] rest) := by
      unfold fairOrderingDescending runsBy
      rw [hms]
    have hflat : (runsByAux descKeyEq [a] rest).flatten = a :: rest := by
      rw [runsByAux_flatten]
      rfl
    have hperm : (shuffleGroups rs (runsByAux descKeyEq [a] rest)).Perm l := by
      refine (shuffleGroups_perm _ _).trans ?_
      rw [hflat, ← hms]
      exact List.mergeSort_perm l descLe
    have hsorted : List.Pairwise (fun r1 r2 => descLe r1 r2 = true) (a :: rest) := by
      rw [← hms]
      exact List.sorted_mergeSort descLe_trans descLe_total l
    refine ⟨?_, ?_, ?_⟩
    · rw [hunf]
      exact hperm
    · rw [hunf]
      refine shuffleGroups_pairwise _ descKeyEq ?_ _ rs ?_ ?_
      · intro x y hxy
        have hxy' : x.m_cUnsplittableEitherSideMax = y.m_cUnsplittableEitherSideMax
            ∧ x.m_cUnsplittableEitherSideMin = y.m_cUnsplittableEitherSideMin := by
          simpa [descKeyEq] using hxy
        right
        omega
      · intro g hg
        refine (runsByAux_groups descKeyEq descKeyEq_symm descKeyEq_trans descKeyEq_refl
          rest [a] (by simp) ?_ g hg).2
        intro u hu v hv
        simp only [List.mem_singleton] at hu hv
        rw [hu, hv]
        exact descKeyEq_refl a
      · rw [hflat]
        refine hsorted.imp ?_
        intro x y hxy
        unfold descLe at hxy
        split_ifs at hxy <;> simp only [decide_eq_true_eq] at hxy <;> omega
    · rw [hunf, hfair]

/-- C8: on every nonempty pointer table, each sort produces a permutation of
the input ordered by its primary key (nondecreasing m_cSplittableItems for
the ascending sort; descending (max, min) for the compound sort), equal to
the spec-side description "stable sort by (primary key, original position),
then an in-place Fisher-Yates shuffle of every maximal equal-key block
drawing each swap index from the seeded source" — so elements never move
across block boundaries — and the per-block shuffle is a permutation of its
block. -/
theorem sortSplittingRanges_spec (rs : RandomStream) (l : List SplittingRange)
    (h : l ≠ []) :
    (SortSplittingRangesByCountItemsAscending rs l).Perm l
    ∧ List.Pairwise (fun r1 r2 => r1.m_cSplittableItems ≤ r2.m_cSplittableItems)
        (SortSplittingRangesByCountItemsAscending rs l)
    ∧ SortSplittingRangesByCountItemsAscending rs l = fairOrderingAscending rs l
    ∧ (SortSplittingRangesByUnsplittableDescending rs l).Perm l
    ∧ List.Pairwise (fun r1 r2 =>
        r2.m_cUnsplittableEitherSideMax < r1.m_cUnsplittableEitherSideMax
        ∨ (r2.m_cUnsplittableEitherSideMax = r1.m_cUnsplittableEitherSideMax
            ∧ r2.m_cUnsplittableEitherSideMin ≤ r1.m_cUnsplittableEitherSideMin))
        (SortSplittingRangesByUnsplittableDescending rs l)
    ∧ SortSplittingRangesByUnsplittableDescending rs l = fairOrderingDescending rs l
    ∧ ∀ (rs' : RandomStream) (g : List SplittingRange), ((fisherYates rs' g).1).Perm g := by
  obtain ⟨h1, h2, h3⟩ := sortAsc_spec rs l h
  obtain ⟨h4, h5, h6⟩ := sortDesc_spec rs l h
  exact ⟨h1, h2, h3, h4, h5, h6, fun rs' g => fisherYates_perm rs' g⟩

/-- Witness for C8 on a concrete two-element table. -/
theorem sortSplittingRanges_spec_witness :
    ([⟨0, 3, 0, 5, 5, 0, 1, 1⟩, ⟨8, 2, 5, 0, 5, 0, 1, 2⟩] ≠ ([] : List SplittingRange))
    ∧ (SortSplittingRangesByCountItemsAscending ⟨[1, 0]⟩
        [⟨0, 3, 0, 5, 5, 0, 1, 1⟩, ⟨8, 2, 5, 0, 5, 0, 1, 2⟩]).Perm
        [⟨0, 3, 0, 5, 5, 0, 1, 1⟩, ⟨8, 2, 5, 0, 5, 0, 1, 2⟩] :=
  ⟨by simp,
    (sortSplittingRanges_spec ⟨[1, 0]⟩
      [⟨0, 3, 0, 5, 5, 0, 1, 1⟩, ⟨8, 2, 5, 0, 5, 0, 1, 2⟩] (by simp)).1⟩
